import Mathlib

/-!
Verification of the region-resolution and overlay-tokenization engine of
`vscode-code-strings` (`src/extension.ts`, class `DynamicSyntaxHighlighter`).

The host document is modelled as a list of lines (the code splits the
document text on the newline character), and each line as a `List Char`.
The JavaScript regular expressions of the scanner are modelled by explicit
character-level functions:

* `/^(.*)(["']{3})(.*)$/` — the first group is greedy, so the match anchors
  at the LAST position where three consecutive quote characters occur;
  `matchTriple` returns (group1, group2, group3) for that anchoring.
* `/^(.*)`(.*)$/` — likewise anchored at the last backtick; `matchTick`.
* `/^\s*#\s*lang:\s*(\w+)/` resp. `/^\s*\/\/\s*lang:\s*(\w+)/` — the
  directive comment; `matchDirective`.

Stateful methods (`fetchGrammar` caching grammars and mutating the shared
`tokenTypeColors` map) are modelled by explicit state passing over
`HState`.  The external collaborators (network fetch + plist/JSON parse,
and `vscode-textmate`'s `grammar.tokenizeLine`) are abstracted as
parameters (`provider`, `grammarOf`, and the `Grammar.tokenizeLine`
field).
-/

/-- A character the regex class `["']` accepts: a double or single quote. -/
def isQuoteChar (c : Char) : Bool := c == '"' || c == '\''

/-- Three consecutive quote characters occur at position `j` of the line. -/
def tripleAt (cs : List Char) (j : Nat) : Bool :=
  match cs.drop j with
  | c1 :: c2 :: c3 :: _ => isQuoteChar c1 && isQuoteChar c2 && isQuoteChar c3
  | _ => false

/-- A backtick occurs at position `j` of the line. -/
def tickAt (cs : List Char) (j : Nat) : Bool :=
  match cs.drop j with
  | c :: _ => c == Char.ofNat 96
  | _ => false

/-- Largest `j < n` satisfying `p`, scanning downward from `n`. -/
def lastIdxSat (p : Nat → Bool) : Nat → Option Nat
  | 0 => none
  | n + 1 => if p n then some n else lastIdxSat p n

/-- Anchor position of the greedy match of `/^(.*)(["']{3})(.*)$/`:
the last position where three consecutive quote characters start. -/
def lastTripleIdx (cs : List Char) : Option Nat := lastIdxSat (tripleAt cs) cs.length

/-- Anchor position of the greedy match of `/^(.*)`(.*)$/`. -/
def lastTickIdx (cs : List Char) : Option Nat := lastIdxSat (tickAt cs) cs.length

/-- Model of `line.match(/^(.*)(["']{3})(.*)$/)`: `some (group1, group2, group3)`,
with group1 greedy (anchored at the last triple-quote occurrence). -/
def matchTriple (cs : List Char) : Option (List Char × List Char × List Char) :=
  match lastTripleIdx cs with
  | some j => some (cs.take j, (cs.drop j).take 3, cs.drop (j + 3))
  | none => none

/-- Model of `line.match(/^(.*)`(.*)$/)`: `some (group1, group2)`, group1 greedy. -/
def matchTick (cs : List Char) : Option (List Char × List Char) :=
  match lastTickIdx cs with
  | some j => some (cs.take j, cs.drop (j + 1))
  | none => none

theorem lastIdxSat_spec {p : Nat → Bool} : ∀ {n j : Nat}, lastIdxSat p n = some j →
    j < n ∧ p j = true ∧ ∀ k, j < k → k < n → p k = false := by
  intro n
  induction n with
  | zero => intro j h; simp [lastIdxSat] at h
  | succ n ih =>
    intro j h
    by_cases hp : p n = true
    · simp [lastIdxSat, hp] at h
      subst h
      exact ⟨Nat.lt_succ_self _, hp, fun k hk hk2 => absurd hk (by omega)⟩
    · simp [lastIdxSat, hp] at h
      obtain ⟨h1, h2, h3⟩ := ih h
      refine ⟨by omega, h2, fun k hk hk2 => ?_⟩
      rcases Nat.lt_or_ge k n with hlt | hge
      · exact h3 k hk hlt
      · have : k = n := by omega
        subst this
        exact Bool.not_eq_true _ ▸ (by simpa using hp)

theorem lastIdxSat_none {p : Nat → Bool} : ∀ {n : Nat}, lastIdxSat p n = none →
    ∀ k, k < n → p k = false := by
  intro n
  induction n with
  | zero => intro _ k hk; omega
  | succ n ih =>
    intro h k hk
    by_cases hp : p n = true
    · simp [lastIdxSat, hp] at h
    · simp [lastIdxSat, hp] at h
      rcases Nat.lt_or_ge k n with hlt | hge
      · exact ih h k hlt
      · have : k = n := by omega
        subst this
        simpa using hp

theorem tripleAt_drop (cs : List Char) (m j : Nat) :
    tripleAt (cs.drop m) j = tripleAt cs (m + j) := by
  simp [tripleAt, List.drop_drop, Nat.add_comm]

theorem tickAt_drop (cs : List Char) (m j : Nat) :
    tickAt (cs.drop m) j = tickAt cs (m + j) := by
  simp [tickAt, List.drop_drop, Nat.add_comm]

theorem tripleAt_true_bound {cs : List Char} {j : Nat} (h : tripleAt cs j = true) :
    j + 3 ≤ cs.length := by
  unfold tripleAt at h
  rcases hd : cs.drop j with _ | ⟨c1, _ | ⟨c2, _ | ⟨c3, rest⟩⟩⟩ <;> rw [hd] at h <;>
    simp at h
  have : (cs.drop j).length = cs.length - j := by simp
  rw [hd] at this
  simp at this
  omega

theorem tickAt_true_bound {cs : List Char} {j : Nat} (h : tickAt cs j = true) :
    j + 1 ≤ cs.length := by
  unfold tickAt at h
  rcases hd : cs.drop j with _ | ⟨c, rest⟩ <;> rw [hd] at h <;> simp at h
  have : (cs.drop j).length = cs.length - j := by simp
  rw [hd] at this
  simp at this
  omega

/-- Characterization of the greedy triple-quote match: the line splits as
`pre ++ q ++ post`, `q` is three quote characters, and no triple-quote
occurrence starts inside `post` (the anchor is the last occurrence). -/
theorem matchTriple_spec {cs pre q post : List Char}
    (h : matchTriple cs = some (pre, q, post)) :
    cs = pre ++ q ++ post ∧ q.length = 3 ∧ (∀ c ∈ q, isQuoteChar c = true) ∧
      pre.length + 3 ≤ cs.length ∧ (∀ k, tripleAt post k = false) := by
  unfold matchTriple lastTripleIdx at h
  rcases hj : lastIdxSat (tripleAt cs) cs.length with _ | j
  · rw [hj] at h; simp at h
  · rw [hj] at h
    simp at h
    obtain ⟨hpre, hq, hpost⟩ := h
    obtain ⟨hjn, hpj, hmax⟩ := lastIdxSat_spec hj
    have hbound := tripleAt_true_bound hpj
    have hq3 : ∃ c1 c2 c3 rest, cs.drop j = c1 :: c2 :: c3 :: rest ∧
        isQuoteChar c1 = true ∧ isQuoteChar c2 = true ∧ isQuoteChar c3 = true := by
      unfold tripleAt at hpj
      rcases hd : cs.drop j with _ | ⟨c1, _ | ⟨c2, _ | ⟨c3, rest⟩⟩⟩ <;> rw [hd] at hpj <;>
        simp at hpj
      exact ⟨c1, c2, c3, rest, rfl, hpj.1.1, hpj.1.2, hpj.2⟩
    obtain ⟨c1, c2, c3, rest, hd, h1, h2, h3⟩ := hq3
    have hqval : q = [c1, c2, c3] := by rw [← hq, hd]; rfl
    have hsplit : cs = pre ++ q ++ post := by
      rw [← hpre, ← hq, ← hpost]
      have hdd : cs.drop (j + 3) = (cs.drop j).drop 3 := by
        rw [List.drop_drop]
      rw [hdd, List.append_assoc, List.take_append_drop, List.take_append_drop]
    have hprelen : pre.length = j := by
      rw [← hpre]
      simp
      omega
    refine ⟨hsplit, by rw [hqval]; rfl, ?_, by omega, ?_⟩
    · intro c hc
      rw [hqval] at hc
      simp at hc
      rcases hc with rfl | rfl | rfl <;> assumption
    · intro k
      rw [← hpost, tripleAt_drop]
      by_cases hk : j + 3 + k < cs.length
      · exact hmax _ (by omega) hk
      · unfold tripleAt
        rw [List.drop_eq_nil_of_le (by omega)]

/-- Characterization of the greedy backtick match: the line splits as
`pre ++ backtick ++ post` and `post` holds no backtick. -/
theorem matchTick_spec {cs pre post : List Char}
    (h : matchTick cs = some (pre, post)) :
    cs = pre ++ Char.ofNat 96 :: post ∧ pre.length + 1 ≤ cs.length ∧
      (∀ k, tickAt post k = false) := by
  unfold matchTick lastTickIdx at h
  rcases hj : lastIdxSat (tickAt cs) cs.length with _ | j
  · rw [hj] at h; simp at h
  · rw [hj] at h
    simp at h
    obtain ⟨hpre, hpost⟩ := h
    obtain ⟨hjn, hpj, hmax⟩ := lastIdxSat_spec hj
    have hbound := tickAt_true_bound hpj
    have hq1 : ∃ rest, cs.drop j = Char.ofNat 96 :: rest := by
      unfold tickAt at hpj
      rcases hd : cs.drop j with _ | ⟨c, rest⟩ <;> rw [hd] at hpj <;> simp at hpj
      exact ⟨rest, by rw [hpj]⟩
    obtain ⟨rest, hd⟩ := hq1
    have hrest : rest = cs.drop (j + 1) := by
      have : cs.drop (j + 1) = (cs.drop j).drop 1 := by rw [List.drop_drop]
      rw [this, hd]
      rfl
    have hsplit : cs = pre ++ Char.ofNat 96 :: post := by
      rw [← hpre, ← hpost, ← hrest, ← hd, List.take_append_drop]
    have hprelen : pre.length = j := by
      rw [← hpre]
      simp
      omega
    refine ⟨hsplit, by omega, ?_⟩
    intro k
    rw [← hpost, tickAt_drop]
    by_cases hk : j + 1 + k < cs.length
    · exact hmax _ (by omega) hk
    · unfold tickAt
      rw [List.drop_eq_nil_of_le (by omega)]

/-- Whitespace as matched by the regex class `\s` (within a single line). -/
def isSpaceChar (c : Char) : Bool := c == ' ' || c == '\t' || c == '\r'

/-- A word character as matched by the regex class `\w`. -/
def isWordChar (c : Char) : Bool := c.isAlphanum || c == '_'

/-- The literal `lang:` expected after the comment prefix. -/
def stripLangKeyword : List Char → Option (List Char)
  | 'l' :: 'a' :: 'n' :: 'g' :: ':' :: r => some r
  | _ => none

/-- The comment prefix of the directive regex: `#` for python hosts,
`//` for the JS/TS-style default. -/
def stripCommentMarker (parentLanguageId : String) (cs : List Char) : Option (List Char) :=
  if parentLanguageId == "python" then
    match cs with
    | '#' :: r => some r
    | _ => none
  else
    match cs with
    | '/' :: '/' :: r => some r
    | _ => none

/-- Model of `line.match(commentRegex)` where `commentRegex` is
`/^\s*#\s*lang:\s*(\w+)/` for python and `/^\s*\/\/\s*lang:\s*(\w+)/`
otherwise; returns the captured language id lower-cased
(`commentMatch[1].toLowerCase()`). -/
def matchDirective (parentLanguageId : String) (line : List Char) : Option String :=
  match stripCommentMarker parentLanguageId (line.dropWhile isSpaceChar) with
  | none => none
  | some afterPrefix =>
    match stripLangKeyword (afterPrefix.dropWhile isSpaceChar) with
    | none => none
    | some afterKeyword =>
      let word := (afterKeyword.dropWhile isSpaceChar).takeWhile isWordChar
      if word.isEmpty then none else some (String.mk (word.map Char.toLower))

/-- The result record of `findStringLiteral`:
`{ startLine, startLineOffset, endLine, contentLines }`. -/
structure Region where
  startLine : Nat
  startLineOffset : Nat
  endLine : Nat
  contentLines : List (List Char)
deriving DecidableEq

/-- The python branch of the `findStringLiteral` loop.  `st` is `none`
while no opening triple quote has been seen, and `some (startLine,
startLineOffset, firstQuoteType)` afterwards; `acc` is the `contentLines`
accumulator.  The second component records the line indices at which a
mismatched quote variant was reported via `console.error`.  Fuel counts
the remaining loop iterations; the wrapper supplies `lines.length - i`,
which is exact since `i` increases by one per iteration. -/
def findPyAux (lines : List (List Char)) :
    Nat → Nat → Option (Nat × Nat × List Char) → List (List Char) →
    Option Region × List Nat
  | 0, _, _, _ => (none, [])
  | fuel + 1, i, st, acc =>
    if i < lines.length then
      match matchTriple (lines.getD i []) with
      | some (pre, q, _post) =>
        match st with
        | some (s, off, fq) =>
          if q = fq then
            (some ⟨s, off, i, acc ++ [pre]⟩, [])
          else
            let stepRes := findPyAux lines fuel (i + 1) (some (s, off, fq)) acc
            (stepRes.1, i :: stepRes.2)
        | none =>
          findPyAux lines fuel (i + 1) (some (i, pre.length + q.length, q)) (acc ++ [_post])
      | none => findPyAux lines fuel (i + 1) st (acc ++ [lines.getD i []])
    else (none, [])

/-- The template-literal (backtick) branch of the `findStringLiteral`
loop, for the JS/TS parent languages. -/
def findTplAux (lines : List (List Char)) :
    Nat → Nat → Option (Nat × Nat) → List (List Char) → Option Region
  | 0, _, _, _ => none
  | fuel + 1, i, st, acc =>
    if i < lines.length then
      match matchTick (lines.getD i []) with
      | some (pre, post) =>
        match st with
        | some (s, off) => some ⟨s, off, i, acc ++ [pre]⟩
        | none => findTplAux lines fuel (i + 1) (some (i, pre.length)) (acc ++ [post])
      | none => findTplAux lines fuel (i + 1) st (acc ++ [lines.getD i []])
    else none

/-- The parent languages taking the template-literal branch. -/
def templateLangs : List String :=
  ["javascript", "typescript", "javascriptreact", "typescriptreact"]

/-- Model of `findStringLiteral(lines, fromLine, parentLanguageId)`: scans lines
from `fromLine` for the next string literal of the parent language's
dialect.  For any other parent language the loop body does nothing and
the function returns `null`.  Also returns the mismatch log. -/
def findStringLiteral (lines : List (List Char)) (fromLine : Nat)
    (parentLanguageId : String) : Option Region × List Nat :=
  if parentLanguageId == "python" then
    findPyAux lines (lines.length - fromLine) fromLine none []
  else if templateLangs.contains parentLanguageId then
    (findTplAux lines (lines.length - fromLine) fromLine none [], [])
  else (none, [])

/-- One directive hit of a scan pass: the lower-cased target language of
the directive comment together with the literal found for it. -/
structure ScanHit where
  targetLanguage : String
  region : Region
deriving DecidableEq

/-- The skip test `prevEndLine !== undefined && i <= prevEndLine`. -/
def skipCheck (prevEndLine : Option Nat) (i : Nat) : Bool :=
  match prevEndLine with
  | some e => decide (i ≤ e)
  | none => false

/-- The directive-scanning loop of `processDocument`, stripped of the
decoration bookkeeping: walks the lines, skipping past the previous
region's `endLine`, and collects (targetLanguage, Region) pairs in order.
Fuel counts the remaining iterations (the wrapper supplies
`lines.length`). -/
def scanAux (parentLanguageId : String) (lines : List (List Char)) :
    Nat → Nat → Option Nat → List ScanHit
  | 0, _, _ => []
  | fuel + 1, i, prevEndLine =>
    if i < lines.length then
      if skipCheck prevEndLine i then
        scanAux parentLanguageId lines fuel (i + 1) prevEndLine
      else
        match matchDirective parentLanguageId (lines.getD i []) with
        | some targetLanguage =>
          match (findStringLiteral lines (i + 1) parentLanguageId).1 with
          | some r => ⟨targetLanguage, r⟩ :: scanAux parentLanguageId lines fuel (i + 1) (some r.endLine)
          | none => scanAux parentLanguageId lines fuel (i + 1) prevEndLine
        | none => scanAux parentLanguageId lines fuel (i + 1) prevEndLine
    else []

/-- All (directive, Region) pairs one `processDocument` pass produces. -/
def scanRegions (parentLanguageId : String) (lines : List (List Char)) : List ScanHit :=
  scanAux parentLanguageId lines lines.length 0 none

/-- The `SUPPORTED_PARENT_LANGUAGES` list. -/
def supportedParentLanguages : List String :=
  ["python", "javascript", "typescript", "javascriptreact", "typescriptreact"]

/-- Shorthand for writing concrete lines. -/
def chars (s : String) : List Char := s.data

/-- One span of `grammar.tokenizeLine`'s result (`vscode-textmate`
`IToken`): `startIndex`, `endIndex` and the scope stack. -/
structure TMToken where
  startIndex : Nat
  endIndex : Nat
  scopes : List String
deriving DecidableEq

/-- The external tokenizer obtained from `vscode-textmate`, abstracted to
its interface: `tokenizeLine` maps a line and a rule stack to the line's
token spans and the carried-over rule stack (`INITIAL` is modelled as
`0`). -/
structure Grammar where
  tokenizeLine : List Char → Nat → List TMToken × Nat

/-- Model of `token.scopes[token.scopes.length - 1] || 'default'`. -/
def lastScope (scopes : List String) : String :=
  match scopes.getLast? with
  | some s => if s = "" then "default" else s
  | none => "default"

/-- One token of the adapter's output with its host-document
coordinates (both range positions lie on the same host line). -/
structure Token where
  type : String
  value : List Char
  line : Nat
  startCol : Nat
  endCol : Nat
deriving DecidableEq

/-- The loop of `tokenizeWithGrammar`: `i` is the index of the current
content line within the region (`i == 0` receives the column offset) and
`ruleStack` is carried from line to line. -/
def tokenizeAux (g : Grammar) (startLine startLineOffset : Nat) :
    List (List Char) → Nat → Nat → List Token
  | [], _, _ => []
  | line :: rest, i, ruleStack =>
    let lineTokens := g.tokenizeLine line ruleStack
    (lineTokens.1.map fun t =>
      { type := lastScope t.scopes
        value := (line.drop t.startIndex).take (t.endIndex - t.startIndex)
        line := startLine + i
        startCol := t.startIndex + (if i = 0 then startLineOffset else 0)
        endCol := t.endIndex + (if i = 0 then startLineOffset else 0) }) ++
      tokenizeAux g startLine startLineOffset rest (i + 1) lineTokens.2

/-- Model of `tokenizeWithGrammar(contentLines, grammar, startLine, startLineOffset)`. -/
def tokenizeWithGrammar (contentLines : List (List Char)) (g : Grammar)
    (startLine startLineOffset : Nat) : List Token :=
  tokenizeAux g startLine startLineOffset contentLines 0 0

/-- The rule stack in effect before content line `k`, starting from stack
`st` at the head of `ls`. -/
def threadStack (g : Grammar) : List (List Char) → Nat → Nat → Nat
  | _, 0, st => st
  | [], _ + 1, st => st
  | line :: rest, k + 1, st => threadStack g rest k (g.tokenizeLine line st).2

/-- A rule of a raw TextMate grammar, as traversed by
`extractTokenTypesFromGrammar`'s `visitPattern`: optional `name` and
`contentName`, nested `patterns`, a `repository` map, and the three
capture maps of which only each entry's optional `name` is read. -/
inductive RawRule where
  | mk (name contentName : Option String)
       (patterns : List RawRule)
       (repository : List (String × RawRule))
       (captures beginCaptures endCaptures : List (String × Option String))

def RawRule.name : RawRule → Option String
  | .mk n _ _ _ _ _ _ => n

def RawRule.contentName : RawRule → Option String
  | .mk _ cn _ _ _ _ _ => cn

def RawRule.patterns : RawRule → List RawRule
  | .mk _ _ ps _ _ _ _ => ps

def RawRule.repository : RawRule → List (String × RawRule)
  | .mk _ _ _ repo _ _ _ => repo

def RawRule.captures : RawRule → List (String × Option String)
  | .mk _ _ _ _ c _ _ => c

def RawRule.beginCaptures : RawRule → List (String × Option String)
  | .mk _ _ _ _ _ b _ => b

def RawRule.endCaptures : RawRule → List (String × Option String)
  | .mk _ _ _ _ _ _ e => e

/-- The capture names a capture map contributes. -/
def capNames (caps : List (String × Option String)) : List String :=
  caps.filterMap (fun kv => kv.2)

/-- The names `visitPattern` adds from rule `r` and its subtree, in visit
order and with duplicates (the JS `Set` only affects membership, and the
result is deduplicated and sorted afterwards). -/
def ruleNames : RawRule → List String
  | .mk n cn pats repo caps bcaps ecaps =>
    n.toList ++ cn.toList ++
    (pats.attach.map (fun x => ruleNames x.1)).flatten ++
    (repo.attach.map (fun x => ruleNames x.1.2)).flatten ++
    capNames caps ++ capNames bcaps ++ capNames ecaps
decreasing_by
  · have := List.sizeOf_lt_of_mem x.2
    simp only [RawRule.mk.sizeOf_spec]
    omega
  · have h1 := List.sizeOf_lt_of_mem x.2
    have h2 : sizeOf x.1.2 < sizeOf x.1 := by
      rcases x.1 with ⟨a, b⟩
      simp
    simp only [RawRule.mk.sizeOf_spec]
    omega

/-- A parsed raw grammar payload: the `scopeName` field checked by
`fetchGrammar`, and the object tree that `visitPattern` starts from (the
top-level object itself is visited, so it is a `RawRule`). -/
structure RawGrammar where
  scopeName : Option String
  rule : RawRule

/-- Model of `extractTokenTypesFromGrammar`: the distinct names collected by the
DFS, with empty strings removed (`Array.from(types).filter(Boolean)`). -/
def extractTokenTypesFromGrammar (g : RawGrammar) : List String :=
  (ruleNames g.rule).dedup.filter (fun s => !(s == ""))

/-- Lexicographic comparison of strings by character code, as JS
`Array.prototype.sort()` compares strings (code-unit order). -/
def clLeb : List Char → List Char → Bool
  | [], _ => true
  | _ :: _, [] => false
  | a :: as, b :: bs =>
    if a.toNat < b.toNat then true
    else if b.toNat < a.toNat then false
    else clLeb as bs

/-- String comparison used by `tokenTypes.sort()`. -/
def strLeb (a b : String) : Bool := clLeb a.data b.data

/-- Insertion into a sorted list (the modelling of JS `sort()`: any
correct sort of a duplicate-free list yields the same result). -/
def insertSorted (x : String) : List String → List String
  | [] => [x]
  | y :: ys => if strLeb x y then x :: y :: ys else y :: insertSorted x ys

/-- The sort applied to the extracted token types. -/
def sortStrings : List String → List String
  | [] => []
  | x :: xs => insertSorted x (sortStrings xs)

/-- The `tokenTypes` list after `extractTokenTypesFromGrammar` and `sort()`. -/
def sortedTokenTypes (g : RawGrammar) : List String :=
  sortStrings (extractTokenTypesFromGrammar g)

/-- The `colorPalette` array. -/
def colorPalette : List String :=
  ["#569cd6", "#ce9178", "#6a9955", "#b5cea8", "#4fc1ff",
   "#dcdcaa", "#c586c0", "#9cdcfe", "#f44747", "#d7ba7d",
   "#b267e6", "#ffb86c", "#50fa7b", "#ff79c6", "#8be9fd",
   "#bd93f9", "#f8f8f2", "#6272a4", "#44475a", "#dcdcdc"]

/-- Model of `Map.set`: overwrite the value at the key's existing entry (keeping
its position), else append the entry (JS `Map` keeps first-insertion key
order and holds each key at most once). -/
def setEntry {α : Type} : List (String × α) → String → α → List (String × α)
  | [], k, v => [(k, v)]
  | p :: rest, k, v => if p.1 == k then (k, v) :: rest else p :: setEntry rest k v

/-- The loop `for i ...: tokenTypeColors.set(tokenTypes[i],
colorPalette[i % colorPalette.length])`, entered at index `i`. -/
def assignColors (m : List (String × String)) : Nat → List String → List (String × String)
  | _, [] => m
  | i, t :: ts =>
    assignColors (setEntry m t (colorPalette.getD (i % colorPalette.length) "")) (i + 1) ts

/-- The whole color-map update a grammar load performs on the shared
`tokenTypeColors` map: the palette loop over the sorted token types,
then `tokenTypeColors.set('default', '#dcdcdc')`. -/
def updateColors (m : List (String × String)) (sortedTypes : List String) :
    List (String × String) :=
  setEntry (assignColors m 0 sortedTypes) "default" "#dcdcdc"

/-- The mutable fields of `DynamicSyntaxHighlighter` the engine reads and
writes while highlighting: `grammarCache` and the shared
`tokenTypeColors` map. -/
structure HState where
  grammarCache : List (String × Grammar)
  tokenTypeColors : List (String × String)

/-- The `urls` table of `fetchGrammar`. -/
def urlFor (language : String) : Option String :=
  if language == "javascript" then
    some "https://raw.githubusercontent.com/microsoft/TypeScript-TmLanguage/refs/heads/master/TypeScriptReact.tmLanguage"
  else if language == "js" then
    some "https://raw.githubusercontent.com/microsoft/TypeScript-TmLanguage/refs/heads/master/TypeScriptReact.tmLanguage"
  else if language == "py" then
    some "https://raw.githubusercontent.com/MagicStack/MagicPython/refs/heads/master/grammars/MagicPython.tmLanguage"
  else if language == "python" then
    some "https://raw.githubusercontent.com/MagicStack/MagicPython/refs/heads/master/grammars/MagicPython.tmLanguage"
  else if language == "glsl" then
    some "https://raw.githubusercontent.com/stef-levesque/vscode-shader/refs/heads/master/syntaxes/glsl.tmLanguage"
  else if language == "css" then
    some "https://raw.githubusercontent.com/microsoft/vscode/refs/heads/main/extensions/css/syntaxes/css.tmLanguage.json"
  else none

/-- Model of `fetchGrammar(language)`, with the external effects as parameters:
`provider` models the fetch of the URL and the plist/JSON parse (`none`
for a failed fetch or a parse error), and `grammarOf` models
`registry.loadGrammar` turning the raw payload into a tokenizer.  In
order, as in the code: unknown id → `null`; cache hit → cached grammar
with no other effect; fetch/parse failure → `null`; payload without
`scopeName` → `null`; otherwise the grammar is cached and the shared
color map is updated from the sorted extracted token types. -/
def fetchGrammar (provider : String → Option RawGrammar) (grammarOf : RawGrammar → Grammar)
    (st : HState) (language : String) : Option Grammar × HState :=
  match urlFor language with
  | none => (none, st)
  | some _ =>
    match st.grammarCache.lookup language with
    | some g => (some g, st)
    | none =>
      match provider language with
      | none => (none, st)
      | some raw =>
        match raw.scopeName with
        | none => (none, st)
        | some _ =>
          let g := grammarOf raw
          (some g,
            { grammarCache := setEntry st.grammarCache language g
              tokenTypeColors := updateColors st.tokenTypeColors (sortedTokenTypes raw) })

/-- One output decoration: `{ range: token.range, type: token.type }`. -/
structure SyntaxDecoration where
  type : String
  line : Nat
  startCol : Nat
  endCol : Nat
deriving DecidableEq

/-- Model of `applySyntaxHighlighting`: fetch the grammar for the target language;
with a grammar, tokenize the content lines; without one, contribute zero
decorations and report the failure (`console.error`, modelled by the
`Bool` component). -/
def applySyntaxHighlighting (provider : String → Option RawGrammar)
    (grammarOf : RawGrammar → Grammar) (st : HState) (startLine startLineOffset : Nat)
    (contentLines : List (List Char)) (language : String) :
    List SyntaxDecoration × HState × Bool :=
  match fetchGrammar provider grammarOf st language with
  | (some g, st') =>
    ((tokenizeWithGrammar contentLines g startLine startLineOffset).map fun t =>
      { type := t.type, line := t.line, startCol := t.startCol, endCol := t.endCol },
      st', false)
  | (none, st') => ([], st', true)

/-- The per-region part of the `processDocument` loop: each scan hit is
highlighted in order, threading the highlighter state, and the
decorations are concatenated (their later grouping by type only
rearranges the same decorations). -/
def highlightRegions (provider : String → Option RawGrammar)
    (grammarOf : RawGrammar → Grammar) :
    HState → List ScanHit → List SyntaxDecoration × HState
  | st, [] => ([], st)
  | st, h :: rest =>
    let step := applySyntaxHighlighting provider grammarOf st h.region.startLine
      h.region.startLineOffset h.region.contentLines h.targetLanguage
    let restOut := highlightRegions provider grammarOf step.2.1 rest
    (step.1 ++ restOut.1, restOut.2)

/-- A full `processDocument` pass over a document: nothing for an
unsupported parent language, otherwise scan and highlight every region. -/
def processDocumentPass (provider : String → Option RawGrammar)
    (grammarOf : RawGrammar → Grammar) (st : HState) (parentLanguageId : String)
    (lines : List (List Char)) : List SyntaxDecoration × HState :=
  if supportedParentLanguages.contains parentLanguageId then
    highlightRegions provider grammarOf st (scanRegions parentLanguageId lines)
  else ([], st)

/-- The lines strictly between indices `a` (inclusive) and `b`
(exclusive) of the host document. -/
def midLines (lines : List (List Char)) (a b : Nat) : List (List Char) :=
  (List.range' a (b - a)).map (fun j => lines.getD j [])

/-- The interior text of a triple-quoted literal opened on line `s` and
closed on line `e`: the characters strictly between the opening
delimiter (the triple quote the scanner anchored on line `s`) and the
closing delimiter (the one anchored on line `e`), with the interior
lines joined by newlines. -/
def interiorPy (lines : List (List Char)) (s e : Nat) : List Char :=
  let post := match matchTriple (lines.getD s []) with
    | some (_, _, p) => p
    | none => []
  let preE := match matchTriple (lines.getD e []) with
    | some (p, _, _) => p
    | none => []
  List.intercalate ['\n'] ([post] ++ midLines lines (s + 1) e ++ [preE])

/-- The interior text of a template literal opened on line `s` and
closed on line `e` (text after the anchored backtick of line `s`, the
middle lines, and the text before the anchored backtick of line `e`). -/
def interiorTpl (lines : List (List Char)) (s e : Nat) : List Char :=
  let post := match matchTick (lines.getD s []) with
    | some (_, p) => p
    | none => []
  let preE := match matchTick (lines.getD e []) with
    | some (p, _) => p
    | none => []
  List.intercalate ['\n'] ([post] ++ midLines lines (s + 1) e ++ [preE])

/-- A rule of the grammar tree is reachable from the root through nested
`patterns` arrays and `repository` entries. -/
inductive Reaches : RawRule → RawRule → Prop where
  | refl (r : RawRule) : Reaches r r
  | viaPatterns {r p c : RawRule} : Reaches r p → c ∈ p.patterns → Reaches r c
  | viaRepository {r p c : RawRule} {k : String} :
      Reaches r p → (k, c) ∈ p.repository → Reaches r c

/-- Rule `r` itself carries scope name `s`: as its `name`, its
`contentName`, or the `name` of one of its capture entries. -/
def HasScopeName (r : RawRule) (s : String) : Prop :=
  r.name = some s ∨ r.contentName = some s ∨
    (∃ k, (k, some s) ∈ r.captures) ∨ (∃ k, (k, some s) ∈ r.beginCaptures) ∨
    (∃ k, (k, some s) ∈ r.endCaptures)

/-- Scope name `s` is reachable in the rule tree rooted at `root`. -/
def ReachableScopeName (root : RawRule) (s : String) : Prop :=
  ∃ r, Reaches root r ∧ HasScopeName r s

theorem ruleNames_def (n cn : Option String) (pats : List RawRule)
    (repo : List (String × RawRule)) (caps bcaps ecaps : List (String × Option String)) :
    ruleNames (.mk n cn pats repo caps bcaps ecaps) =
      n.toList ++ cn.toList ++ (pats.map ruleNames).flatten ++
      (repo.map (fun kv => ruleNames kv.2)).flatten ++
      capNames caps ++ capNames bcaps ++ capNames ecaps := by
  rw [ruleNames]
  rw [List.attach_map_val pats (fun p => ruleNames p),
    List.attach_map_val repo (fun kv => ruleNames kv.2)]

theorem subset_ruleNames_of_mem_patterns {r c : RawRule} (hc : c ∈ r.patterns) :
    ∀ s, s ∈ ruleNames c → s ∈ ruleNames r := by
  intro s hs
  rcases r with ⟨n, cn, pats, repo, caps, bcaps, ecaps⟩
  simp only [RawRule.patterns] at hc
  rw [ruleNames_def]
  simp only [List.mem_append, List.mem_flatten, List.mem_map]
  exact Or.inl (Or.inl (Or.inl (Or.inl (Or.inr ⟨ruleNames c, ⟨c, hc, rfl⟩, hs⟩))))

theorem subset_ruleNames_of_mem_repository {r c : RawRule} {k : String}
    (hc : (k, c) ∈ r.repository) : ∀ s, s ∈ ruleNames c → s ∈ ruleNames r := by
  intro s hs
  rcases r with ⟨n, cn, pats, repo, caps, bcaps, ecaps⟩
  simp only [RawRule.repository] at hc
  rw [ruleNames_def]
  simp only [List.mem_append, List.mem_flatten, List.mem_map]
  exact Or.inl (Or.inl (Or.inl (Or.inr ⟨ruleNames c, ⟨(k, c), hc, rfl⟩, hs⟩)))

theorem mem_ruleNames_of_hasScopeName {r : RawRule} {s : String}
    (h : HasScopeName r s) : s ∈ ruleNames r := by
  rcases r with ⟨n, cn, pats, repo, caps, bcaps, ecaps⟩
  rw [ruleNames_def]
  simp only [List.mem_append]
  rcases h with h | h | ⟨k, h⟩ | ⟨k, h⟩ | ⟨k, h⟩
  · simp only [RawRule.name] at h
    subst h
    exact Or.inl (Or.inl (Or.inl (Or.inl (Or.inl (by simp)))))
  · simp only [RawRule.contentName] at h
    subst h
    exact Or.inl (Or.inl (Or.inl (Or.inl (Or.inl (Or.inr (by simp))))))
  · simp only [RawRule.captures] at h
    exact Or.inl (Or.inl (Or.inr (List.mem_filterMap.mpr ⟨(k, some s), h, rfl⟩)))
  · simp only [RawRule.beginCaptures] at h
    exact Or.inl (Or.inr (List.mem_filterMap.mpr ⟨(k, some s), h, rfl⟩))
  · simp only [RawRule.endCaptures] at h
    exact Or.inr (List.mem_filterMap.mpr ⟨(k, some s), h, rfl⟩)

theorem mem_ruleNames_of_reaches {root r : RawRule} (h : Reaches root r) :
    ∀ s, s ∈ ruleNames r → s ∈ ruleNames root := by
  induction h with
  | refl => exact fun _ hs => hs
  | viaPatterns _ hmem ih =>
    exact fun s hs => ih s (subset_ruleNames_of_mem_patterns hmem s hs)
  | viaRepository _ hmem ih =>
    exact fun s hs => ih s (subset_ruleNames_of_mem_repository hmem s hs)

theorem mem_ruleNames_of_reachable {root : RawRule} {s : String}
    (h : ReachableScopeName root s) : s ∈ ruleNames root := by
  obtain ⟨r, hreach, hname⟩ := h
  exact mem_ruleNames_of_reaches hreach s (mem_ruleNames_of_hasScopeName hname)

theorem Reaches.trans {a b c : RawRule} (h1 : Reaches a b) (h2 : Reaches b c) :
    Reaches a c := by
  induction h2 with
  | refl => exact h1
  | viaPatterns _ hmem ih => exact Reaches.viaPatterns ih hmem
  | viaRepository _ hmem ih => exact Reaches.viaRepository ih hmem

theorem reachable_of_mem_ruleNames :
    ∀ (r : RawRule) (s : String), s ∈ ruleNames r → ReachableScopeName r s
  | .mk n cn pats repo caps bcaps ecaps, s, h => by
    rw [ruleNames_def] at h
    simp only [List.mem_append, List.mem_flatten, List.mem_map, capNames,
      List.mem_filterMap, Option.mem_toList, Option.mem_def] at h
    rcases h with (((((h | h) | h) | h) | h) | h) | h
    · exact ⟨_, Reaches.refl _, Or.inl (by simpa [RawRule.name] using h)⟩
    · exact ⟨_, Reaches.refl _, Or.inr (Or.inl (by simpa [RawRule.contentName] using h))⟩
    · obtain ⟨l, ⟨p, hp, rfl⟩, hs⟩ := h
      obtain ⟨q, hq, hname⟩ := reachable_of_mem_ruleNames p s hs
      refine ⟨q, Reaches.trans (Reaches.viaPatterns (Reaches.refl _) ?_) hq, hname⟩
      simpa [RawRule.patterns] using hp
    · obtain ⟨l, ⟨kv, hkv, rfl⟩, hs⟩ := h
      obtain ⟨q, hq, hname⟩ := reachable_of_mem_ruleNames kv.2 s hs
      refine ⟨q, Reaches.trans (@Reaches.viaRepository _ _ kv.2 kv.1 (Reaches.refl _) ?_) hq,
        hname⟩
      simpa [RawRule.repository] using hkv
    · obtain ⟨⟨k, o⟩, hkv, rfl⟩ := h
      exact ⟨_, Reaches.refl _, Or.inr (Or.inr (Or.inl ⟨k, by simpa [RawRule.captures] using hkv⟩))⟩
    · obtain ⟨⟨k, o⟩, hkv, rfl⟩ := h
      exact ⟨_, Reaches.refl _,
        Or.inr (Or.inr (Or.inr (Or.inl ⟨k, by simpa [RawRule.beginCaptures] using hkv⟩)))⟩
    · obtain ⟨⟨k, o⟩, hkv, rfl⟩ := h
      exact ⟨_, Reaches.refl _,
        Or.inr (Or.inr (Or.inr (Or.inr ⟨k, by simpa [RawRule.endCaptures] using hkv⟩)))⟩
termination_by r => sizeOf r
decreasing_by
  · have := List.sizeOf_lt_of_mem hp
    simp only [RawRule.mk.sizeOf_spec]
    omega
  · have h1 := List.sizeOf_lt_of_mem hkv
    have h2 : sizeOf kv.2 < sizeOf kv := by
      rcases kv with ⟨a, b⟩
      simp
    simp only [RawRule.mk.sizeOf_spec]
    omega

/-- Membership in the DFS name collection coincides with reachability in
the rule tree. -/
theorem mem_ruleNames_iff_reachable (r : RawRule) (s : String) :
    s ∈ ruleNames r ↔ ReachableScopeName r s :=
  ⟨reachable_of_mem_ruleNames r s, mem_ruleNames_of_reachable⟩

/-- The lines the close-seeking python loop pushes verbatim between
indices `a` (inclusive) and `b` (exclusive): exactly those that do not
match the triple-quote pattern (matching lines either close the literal
or are mismatched variants, which are dropped). -/
def midsPy (lines : List (List Char)) (a b : Nat) : List (List Char) :=
  ((List.range' a (b - a)).filter (fun j => (matchTriple (lines.getD j [])).isNone)).map
    (fun j => lines.getD j [])

theorem midsPy_self (lines : List (List Char)) (a : Nat) : midsPy lines a a = [] := by
  simp [midsPy]

theorem midsPy_cons_none {lines : List (List Char)} {a b : Nat} (h : a < b)
    (hm : matchTriple (lines.getD a []) = none) :
    midsPy lines a b = lines.getD a [] :: midsPy lines (a + 1) b := by
  unfold midsPy
  have hb : b - a = (b - (a + 1)) + 1 := by omega
  rw [hb, List.range'_succ, List.filter_cons,
    if_pos (by rw [hm]; rfl)]
  simp

theorem midsPy_cons_some {lines : List (List Char)} {a b : Nat}
    {x : List Char × List Char × List Char} (h : a < b)
    (hm : matchTriple (lines.getD a []) = some x) :
    midsPy lines a b = midsPy lines (a + 1) b := by
  unfold midsPy
  have hb : b - a = (b - (a + 1)) + 1 := by omega
  rw [hb, List.range'_succ, List.filter_cons,
    if_neg (by rw [hm]; simp)]

theorem midsPy_eq_midLines {lines : List (List Char)} {a b : Nat}
    (h : ∀ j, a ≤ j → j < b → matchTriple (lines.getD j []) = none) :
    midsPy lines a b = midLines lines a b := by
  unfold midsPy midLines
  congr 1
  apply List.filter_eq_self.mpr
  intro j hj
  rw [List.mem_range'_1] at hj
  have hn := h j hj.1 (by omega)
  rw [hn]
  rfl

theorem length_midLines (lines : List (List Char)) (a b : Nat) :
    (midLines lines a b).length = b - a := by
  simp [midLines]

/-- Invariant of the python literal loop in its close-seeking state: a
returned region keeps the recorded start data, ends at the first
subsequent line matching the opening quote variant, and its content is
the accumulator, then the non-matching middle lines, then the text
before the closing delimiter. -/
theorem findPyAux_close (lines : List (List Char)) (s off : Nat) (fq : List Char) :
    ∀ fuel i acc r logs,
      findPyAux lines fuel i (some (s, off, fq)) acc = (some r, logs) →
      ∃ e preE postE,
        i ≤ e ∧ e < lines.length ∧
        matchTriple (lines.getD e []) = some (preE, fq, postE) ∧
        r.startLine = s ∧ r.startLineOffset = off ∧ r.endLine = e ∧
        r.contentLines = acc ++ midsPy lines i e ++ [preE] := by
  intro fuel
  induction fuel with
  | zero =>
    intro i acc r logs h
    simp [findPyAux] at h
  | succ fuel ih =>
    intro i acc r logs h
    simp only [findPyAux] at h
    split at h
    · rename_i hi
      split at h
      · rename_i pre q post hm
        split at h
        · rename_i hq
          subst hq
          have h2 : r = ⟨s, off, i, acc ++ [pre]⟩ := by
            have hfst := congrArg Prod.fst h
            simp at hfst
            exact hfst.symm
          subst h2
          exact ⟨i, pre, post, Nat.le_refl i, hi, hm, rfl, rfl, rfl, by simp [midsPy_self]⟩
        · rename_i hq
          rcases hrec : findPyAux lines fuel (i + 1) (some (s, off, fq)) acc with ⟨ro, lo⟩
          rw [hrec] at h
          simp only [Prod.mk.injEq] at h
          obtain ⟨h1, _⟩ := h
          obtain ⟨e, preE, postE, he1, he2, he3, he4, he5, he6, he7⟩ :=
            ih (i + 1) acc r lo (by rw [hrec, h1])
          refine ⟨e, preE, postE, by omega, he2, he3, he4, he5, he6, ?_⟩
          rw [he7, midsPy_cons_some (by omega) hm]
      · rename_i hm
        obtain ⟨e, preE, postE, he1, he2, he3, he4, he5, he6, he7⟩ :=
          ih (i + 1) (acc ++ [lines.getD i []]) r logs h
        refine ⟨e, preE, postE, by omega, he2, he3, he4, he5, he6, ?_⟩
        rw [he7, midsPy_cons_none (by omega) hm]
        simp
    · simp at h

theorem midLines_cons {lines : List (List Char)} {a b : Nat} (h : a < b) :
    midLines lines a b = lines.getD a [] :: midLines lines (a + 1) b := by
  unfold midLines
  have hb : b - a = (b - (a + 1)) + 1 := by omega
  rw [hb, List.range'_succ, List.map_cons]

/-- Invariant of the python literal loop started in its open-seeking
state: every line scanned before the opening line is appended to the
accumulator verbatim, the opening line's offset is the pre-literal text
plus the delimiter, and the closing line matches the same quote variant. -/
theorem findPyAux_open (lines : List (List Char)) :
    ∀ fuel i acc r logs,
      findPyAux lines fuel i none acc = (some r, logs) →
      ∃ s pre q post e preE postE,
        i ≤ s ∧ s < e ∧ e < lines.length ∧
        (∀ j, i ≤ j → j < s → matchTriple (lines.getD j []) = none) ∧
        matchTriple (lines.getD s []) = some (pre, q, post) ∧
        matchTriple (lines.getD e []) = some (preE, q, postE) ∧
        r.startLine = s ∧ r.startLineOffset = pre.length + q.length ∧ r.endLine = e ∧
        r.contentLines = acc ++ midLines lines i s ++ [post] ++ midsPy lines (s + 1) e ++ [preE] := by
  intro fuel
  induction fuel with
  | zero =>
    intro i acc r logs h
    simp [findPyAux] at h
  | succ fuel ih =>
    intro i acc r logs h
    simp only [findPyAux] at h
    split at h
    · rename_i hi
      split at h
      · rename_i pre q post hm
        obtain ⟨e, preE, postE, he1, he2, he3, he4, he5, he6, he7⟩ :=
          findPyAux_close lines i (pre.length + q.length) q fuel (i + 1) (acc ++ [post]) r logs h
        refine ⟨i, pre, q, post, e, preE, postE, Nat.le_refl i, by omega, he2,
          fun j hj1 hj2 => absurd hj1 (by omega), hm, he3, he4, he5, he6, ?_⟩
        rw [he7]
        simp [midLines]
      · rename_i hm
        obtain ⟨s, pre, q, post, e, preE, postE, hs1, hs2, hs3, hs4, hs5, hs6, hs7, hs8, hs9, hs10⟩ :=
          ih (i + 1) (acc ++ [lines.getD i []]) r logs h
        refine ⟨s, pre, q, post, e, preE, postE, by omega, hs2, hs3, ?_, hs5, hs6, hs7, hs8, hs9, ?_⟩
        · intro j hj1 hj2
          rcases Nat.eq_or_lt_of_le hj1 with rfl | hj1
          · exact hm
          · exact hs4 j (by omega) hj2
        · rw [hs10, midLines_cons (show i < s by omega)]
          simp
    · simp at h

/-- Invariant of the template-literal loop in its close-seeking state:
the literal closes at the first subsequent line containing a backtick,
and every middle line (pushed verbatim) contains none. -/
theorem findTplAux_close (lines : List (List Char)) (s off : Nat) :
    ∀ fuel i acc r,
      findTplAux lines fuel i (some (s, off)) acc = some r →
      ∃ e preE postE,
        i ≤ e ∧ e < lines.length ∧
        matchTick (lines.getD e []) = some (preE, postE) ∧
        (∀ j, i ≤ j → j < e → matchTick (lines.getD j []) = none) ∧
        r.startLine = s ∧ r.startLineOffset = off ∧ r.endLine = e ∧
        r.contentLines = acc ++ midLines lines i e ++ [preE] := by
  intro fuel
  induction fuel with
  | zero =>
    intro i acc r h
    simp [findTplAux] at h
  | succ fuel ih =>
    intro i acc r h
    simp only [findTplAux] at h
    split at h
    · rename_i hi
      split at h
      · rename_i pre post hm
        have h2 : r = ⟨s, off, i, acc ++ [pre]⟩ := (Option.some.inj h).symm
        subst h2
        refine ⟨i, pre, post, Nat.le_refl i, hi, hm,
          fun j hj1 hj2 => absurd hj1 (by omega), rfl, rfl, rfl, ?_⟩
        simp [midLines]
      · rename_i hm
        obtain ⟨e, preE, postE, he1, he2, he3, he4, he5, he6, he7, he8⟩ :=
          ih (i + 1) (acc ++ [lines.getD i []]) r h
        refine ⟨e, preE, postE, by omega, he2, he3, ?_, he5, he6, he7, ?_⟩
        · intro j hj1 hj2
          rcases Nat.eq_or_lt_of_le hj1 with rfl | hj1
          · exact hm
          · exact he4 j (by omega) hj2
        · rw [he8, midLines_cons (show i < e by omega)]
          simp
    · simp at h

/-- Invariant of the template-literal loop started in its open-seeking
state. -/
theorem findTplAux_open (lines : List (List Char)) :
    ∀ fuel i acc r,
      findTplAux lines fuel i none acc = some r →
      ∃ s pre post e preE postE,
        i ≤ s ∧ s < e ∧ e < lines.length ∧
        (∀ j, i ≤ j → j < s → matchTick (lines.getD j []) = none) ∧
        matchTick (lines.getD s []) = some (pre, post) ∧
        matchTick (lines.getD e []) = some (preE, postE) ∧
        (∀ j, s < j → j < e → matchTick (lines.getD j []) = none) ∧
        r.startLine = s ∧ r.startLineOffset = pre.length ∧ r.endLine = e ∧
        r.contentLines = acc ++ midLines lines i s ++ [post] ++ midLines lines (s + 1) e ++ [preE] := by
  intro fuel
  induction fuel with
  | zero =>
    intro i acc r h
    simp [findTplAux] at h
  | succ fuel ih =>
    intro i acc r h
    simp only [findTplAux] at h
    split at h
    · rename_i hi
      split at h
      · rename_i pre post hm
        obtain ⟨e, preE, postE, he1, he2, he3, he4, he5, he6, he7, he8⟩ :=
          findTplAux_close lines i pre.length fuel (i + 1) (acc ++ [post]) r h
        refine ⟨i, pre, post, e, preE, postE, Nat.le_refl i, by omega, he2,
          fun j hj1 hj2 => absurd hj1 (by omega), hm, he3,
          fun j hj1 hj2 => he4 j (by omega) hj2, he5, he6, he7, ?_⟩
        rw [he8]
        simp [midLines]
      · rename_i hm
        obtain ⟨s, pre, post, e, preE, postE, hs1, hs2, hs3, hs4, hs5, hs6, hs7, hs8, hs9, hs10, hs11⟩ :=
          ih (i + 1) (acc ++ [lines.getD i []]) r h
        refine ⟨s, pre, post, e, preE, postE, by omega, hs2, hs3, ?_, hs5, hs6, hs7, hs8, hs9, hs10, ?_⟩
        · intro j hj1 hj2
          rcases Nat.eq_or_lt_of_le hj1 with rfl | hj1
          · exact hm
          · exact hs4 j (by omega) hj2
        · rw [hs11, midLines_cons (show i < s by omega)]
          simp
    · simp at h

/-- Bounds every returned literal satisfies, for any parent language:
it starts at or after the search start, opens strictly before it closes,
and closes within the document. -/
theorem findStringLiteral_bounds {lines : List (List Char)} {fromLine : Nat} {lang : String}
    {r : Region} (h : (findStringLiteral lines fromLine lang).1 = some r) :
    fromLine ≤ r.startLine ∧ r.startLine < r.endLine ∧ r.endLine < lines.length := by
  unfold findStringLiteral at h
  split at h
  · rcases heq : findPyAux lines (lines.length - fromLine) fromLine none [] with ⟨ro, lo⟩
    rw [heq] at h
    simp at h
    obtain ⟨s, pre, q, post, e, preE, postE, hs1, hs2, hs3, _, _, _, hs7, _, hs9, _⟩ :=
      findPyAux_open lines _ fromLine [] r lo (by rw [heq, h])
    omega
  · split at h
    · simp at h
      obtain ⟨s, pre, post, e, preE, postE, hs1, hs2, hs3, _, _, _, _, hs8, _, hs10, _⟩ :=
        findTplAux_open lines _ fromLine [] r h
      omega
    · simp at h

theorem skipCheck_false {pe : Option Nat} {i e : Nat} (h : skipCheck pe i = false)
    (he : pe = some e) : e < i := by
  subst he
  simp [skipCheck] at h
  omega

/-- Every hit the scan loop emits starts strictly after the current scan
index and strictly after the previous region's end line. -/
theorem scanAux_lb (lang : String) (lines : List (List Char)) :
    ∀ fuel i pe hit, hit ∈ scanAux lang lines fuel i pe →
      i < hit.region.startLine ∧ ∀ e, pe = some e → e < hit.region.startLine := by
  intro fuel
  induction fuel with
  | zero =>
    intro i pe hit h
    simp [scanAux] at h
  | succ fuel ih =>
    intro i pe hit h
    simp only [scanAux] at h
    split at h
    · rename_i hi
      split at h
      · obtain ⟨h1, h2⟩ := ih (i + 1) pe hit h
        exact ⟨by omega, h2⟩
      · rename_i hskip
        have hskip' : skipCheck pe i = false := by
          simpa using hskip
        split at h
        · rename_i tl hd
          split at h
          · rename_i r' hr
            rw [List.mem_cons] at h
            rcases h with rfl | h
            · obtain ⟨hb1, hb2, hb3⟩ := findStringLiteral_bounds hr
              refine ⟨show i < r'.startLine by omega, ?_⟩
              intro e he
              have := skipCheck_false hskip' he
              show e < r'.startLine
              omega
            · obtain ⟨h1, h2⟩ := ih (i + 1) (some r'.endLine) hit h
              obtain ⟨hb1, hb2, hb3⟩ := findStringLiteral_bounds hr
              have h3 := h2 r'.endLine rfl
              refine ⟨by omega, ?_⟩
              intro e he
              have := skipCheck_false hskip' he
              omega
          · obtain ⟨h1, h2⟩ := ih (i + 1) pe hit h
            exact ⟨by omega, h2⟩
        · obtain ⟨h1, h2⟩ := ih (i + 1) pe hit h
          exact ⟨by omega, h2⟩
    · simp at h

/-- The scan loop emits pairwise disjoint, strictly ordered regions. -/
theorem scanAux_pairwise (lang : String) (lines : List (List Char)) :
    ∀ fuel i pe,
      List.Pairwise (fun a b => a.region.endLine < b.region.startLine)
        (scanAux lang lines fuel i pe) := by
  intro fuel
  induction fuel with
  | zero =>
    intro i pe
    simp [scanAux]
  | succ fuel ih =>
    intro i pe
    simp only [scanAux]
    split
    · rename_i hi
      split
      · exact ih (i + 1) pe
      · split
        · rename_i tl hd
          split
          · rename_i r' hr
            refine List.Pairwise.cons ?_ (ih (i + 1) (some r'.endLine))
            intro hit hmem
            exact (scanAux_lb lang lines fuel (i + 1) (some r'.endLine) hit hmem).2
              r'.endLine rfl
          · exact ih (i + 1) pe
        · exact ih (i + 1) pe
    · exact List.Pairwise.nil

/-- Every token `tokenizeWithGrammar` emits for content line `k` carries
host line `startLine + k` and columns shifted by the offset exactly on
the first content line. -/
theorem mem_tokenizeAux {g : Grammar} {sL off : Nat} :
    ∀ (ls : List (List Char)) (i st : Nat) (tok : Token),
      tok ∈ tokenizeAux g sL off ls i st →
      ∃ k t, k < ls.length ∧
        t ∈ (g.tokenizeLine (ls.getD k []) (threadStack g ls k st)).1 ∧
        tok.type = lastScope t.scopes ∧
        tok.line = sL + (i + k) ∧
        tok.startCol = t.startIndex + (if i + k = 0 then off else 0) ∧
        tok.endCol = t.endIndex + (if i + k = 0 then off else 0) := by
  intro ls
  induction ls with
  | nil =>
    intro i st tok h
    simp [tokenizeAux] at h
  | cons line rest ih =>
    intro i st tok h
    simp only [tokenizeAux, List.mem_append, List.mem_map] at h
    rcases h with ⟨t, ht, rfl⟩ | h
    · exact ⟨0, t, by simp, by simpa [threadStack] using ht, rfl, rfl, rfl, rfl⟩
    · obtain ⟨k, t, hk, ht, h3, h4, h5, h6⟩ := ih (i + 1) (g.tokenizeLine line st).2 tok h
      refine ⟨k + 1, t, by simpa using hk, by simpa [threadStack] using ht, h3, ?_, ?_, ?_⟩
      · rw [h4]; omega
      · rw [h5, show i + 1 + k = i + (k + 1) from by omega]
      · rw [h6, show i + 1 + k = i + (k + 1) from by omega]

theorem lookup_setEntry {α : Type} (m : List (String × α)) (k k' : String) (v : α) :
    (setEntry m k v).lookup k' = if k' == k then some v else m.lookup k' := by
  induction m with
  | nil =>
    cases hb : k' == k <;> simp [setEntry, List.lookup, hb]
  | cons p rest ih =>
    by_cases h1 : p.1 == k
    · have h1' : p.1 = k := eq_of_beq h1
      rcases p with ⟨k1, v1⟩
      simp only at h1'
      subst h1'
      simp only [setEntry, beq_self_eq_true, if_pos]
      by_cases h2 : k' == k1
      · simp [List.lookup, h2]
      · simp [List.lookup, h2]
    · rcases p with ⟨k1, v1⟩
      simp only at h1
      simp only [setEntry, h1, Bool.false_eq_true, if_neg, ite_false]
      by_cases h2 : k' == k1
      · have h2' : k' = k1 := eq_of_beq h2
        subst h2'
        have h3 : (k' == k) = false := by
          simpa using h1
        simp [List.lookup, h3]
      · simp only [List.lookup, h2, ih]

theorem lookup_assignColors_notMem :
    ∀ (l : List String) (i : Nat) (m : List (String × String)) (s : String), s ∉ l →
      (assignColors m i l).lookup s = m.lookup s := by
  intro l
  induction l with
  | nil =>
    intro i m s _
    rfl
  | cons t ts ih =>
    intro i m s hs
    simp only [List.mem_cons, not_or] at hs
    simp only [assignColors]
    rw [ih (i + 1) _ s hs.2, lookup_setEntry]
    have : (s == t) = false := by
      simpa using hs.1
    rw [this]
    simp

theorem lookup_assignColors_mem :
    ∀ (l : List String) (i : Nat) (m : List (String × String)) (j : Nat) (hj : j < l.length),
      l.Nodup →
      (assignColors m i l).lookup (l.get ⟨j, hj⟩) =
        some (colorPalette.getD ((i + j) % colorPalette.length) "") := by
  intro l
  induction l with
  | nil =>
    intro i m j hj
    simp at hj
  | cons t ts ih =>
    intro i m j hj hnd
    rcases j with _ | j
    · simp only [assignColors, List.get]
      rw [lookup_assignColors_notMem ts (i + 1) _ t (by simp at hnd; exact hnd.1),
        lookup_setEntry]
      simp
    · simp only [assignColors, List.get]
      rw [ih (i + 1) _ j (by simpa using hj) (by simp at hnd; exact hnd.2),
        show i + 1 + j = i + (j + 1) from by omega]

theorem lookup_updateColors_default (m : List (String × String)) (l : List String) :
    (updateColors m l).lookup "default" = some "#dcdcdc" := by
  unfold updateColors
  rw [lookup_setEntry]
  simp

theorem lookup_updateColors_mem (m : List (String × String)) (l : List String)
    (j : Nat) (hj : j < l.length) (hnd : l.Nodup) (hne : l.get ⟨j, hj⟩ ≠ "default") :
    (updateColors m l).lookup (l.get ⟨j, hj⟩) =
      some (colorPalette.getD (j % colorPalette.length) "") := by
  unfold updateColors
  rw [lookup_setEntry]
  have : (l.get ⟨j, hj⟩ == "default") = false := by
    simpa using hne
  rw [this]
  simpa using lookup_assignColors_mem l 0 m j hj hnd

theorem lookup_updateColors_notMem (m : List (String × String)) (l : List String)
    (s : String) (hs : s ∉ l) (hne : s ≠ "default") :
    (updateColors m l).lookup s = m.lookup s := by
  unfold updateColors
  rw [lookup_setEntry]
  have : (s == "default") = false := by
    simpa using hne
  rw [this]
  simp [lookup_assignColors_notMem l 0 m s hs]

theorem insertSorted_perm (x : String) (l : List String) :
    (insertSorted x l).Perm (x :: l) := by
  induction l with
  | nil => rfl
  | cons y ys ih =>
    by_cases h : strLeb x y
    · simp [insertSorted, h]
    · simp only [insertSorted, h, Bool.false_eq_true, ite_false]
      exact List.Perm.trans (List.Perm.cons y ih) (List.Perm.swap x y ys)

theorem sortStrings_perm (l : List String) : (sortStrings l).Perm l := by
  induction l with
  | nil => rfl
  | cons x xs ih =>
    exact (insertSorted_perm x (sortStrings xs)).trans (List.Perm.cons x ih)

theorem mem_sortStrings {s : String} {l : List String} : s ∈ sortStrings l ↔ s ∈ l :=
  (sortStrings_perm l).mem_iff

theorem sortStrings_nodup {l : List String} (h : l.Nodup) : (sortStrings l).Nodup :=
  ((sortStrings_perm l).nodup_iff).mpr h

theorem clLeb_total : ∀ a b : List Char, clLeb a b = true ∨ clLeb b a = true := by
  intro a
  induction a with
  | nil =>
    intro b
    exact Or.inl rfl
  | cons x xs ih =>
    intro b
    cases b with
    | nil => exact Or.inr rfl
    | cons y ys =>
      rcases Nat.lt_trichotomy x.toNat y.toNat with h | h | h
      · exact Or.inl (by simp [clLeb, h])
      · rcases ih ys with h2 | h2
        · exact Or.inl (by simp [clLeb, h, h2])
        · exact Or.inr (by simp [clLeb, h, h2])
      · exact Or.inr (by simp [clLeb, h])

theorem clLeb_trans : ∀ a b c : List Char,
    clLeb a b = true → clLeb b c = true → clLeb a c = true := by
  intro a
  induction a with
  | nil =>
    intro b c _ _
    rfl
  | cons x xs ih =>
    intro b c hab hbc
    cases b with
    | nil => simp [clLeb] at hab
    | cons y ys =>
      cases c with
      | nil => simp [clLeb] at hbc
      | cons z zs =>
        simp only [clLeb] at hab hbc ⊢
        by_cases h1 : x.toNat < y.toNat
        · by_cases h2 : y.toNat < z.toNat
          · rw [if_pos (by omega)]
          · rw [if_neg h2] at hbc
            by_cases h3 : z.toNat < y.toNat
            · rw [if_pos h3] at hbc
              exact absurd hbc (by simp)
            · rw [if_pos (by omega)]
        · rw [if_neg h1] at hab
          by_cases h4 : y.toNat < x.toNat
          · rw [if_pos h4] at hab
            exact absurd hab (by simp)
          · rw [if_neg h4] at hab
            by_cases h2 : y.toNat < z.toNat
            · rw [if_pos (by omega)]
            · rw [if_neg h2] at hbc
              by_cases h3 : z.toNat < y.toNat
              · rw [if_pos h3] at hbc
                exact absurd hbc (by simp)
              · rw [if_neg h3] at hbc
                rw [if_neg (by omega), if_neg (by omega)]
                exact ih ys zs hab hbc

theorem strLeb_total (a b : String) : strLeb a b = true ∨ strLeb b a = true :=
  clLeb_total a.data b.data

theorem strLeb_trans {a b c : String} (h1 : strLeb a b = true) (h2 : strLeb b c = true) :
    strLeb a c = true :=
  clLeb_trans a.data b.data c.data h1 h2

theorem insertSorted_pairwise (x : String) {l : List String}
    (h : List.Pairwise (fun a b => strLeb a b = true) l) :
    List.Pairwise (fun a b => strLeb a b = true) (insertSorted x l) := by
  induction l with
  | nil =>
    simp [insertSorted]
  | cons y ys ih =>
    rw [List.pairwise_cons] at h
    by_cases hxy : strLeb x y = true
    · simp only [insertSorted, hxy, ite_true]
      refine List.Pairwise.cons ?_ (List.Pairwise.cons h.1 h.2)
      intro z hz
      rcases List.mem_cons.mp hz with rfl | hz
      · exact hxy
      · exact strLeb_trans hxy (h.1 z hz)
    · simp only [insertSorted, hxy, Bool.false_eq_true, ite_false]
      refine List.Pairwise.cons ?_ (ih h.2)
      intro z hz
      rcases List.mem_cons.mp ((insertSorted_perm x ys).mem_iff.mp hz) with rfl | hz
      · rcases strLeb_total z y with h2 | h2
        · exact absurd h2 hxy
        · exact h2
      · exact h.1 z hz

theorem sortStrings_pairwise (l : List String) :
    List.Pairwise (fun a b => strLeb a b = true) (sortStrings l) := by
  induction l with
  | nil => exact List.Pairwise.nil
  | cons x xs ih => exact insertSorted_pairwise x ih

/-- All failure paths of `fetchGrammar` leave the highlighter state
untouched. -/
theorem fetchGrammar_none_state {provider : String → Option RawGrammar}
    {grammarOf : RawGrammar → Grammar} {st : HState} {lang : String} {st' : HState}
    (h : fetchGrammar provider grammarOf st lang = (none, st')) : st' = st := by
  unfold fetchGrammar at h
  split at h
  · injection h with h1 h2
    exact h2.symm
  · split at h
    · simp at h
    · split at h
      · injection h with h1 h2
        exact h2.symm
      · split at h
        · injection h with h1 h2
          exact h2.symm
        · simp at h

/-- A cache hit returns the cached grammar and performs no effect at all:
in particular the color map is not recomputed. -/
theorem fetchGrammar_cacheHit {provider : String → Option RawGrammar}
    {grammarOf : RawGrammar → Grammar} {st : HState} {lang : String} {g : Grammar}
    (hurl : (urlFor lang).isSome = true)
    (hc : st.grammarCache.lookup lang = some g) :
    fetchGrammar provider grammarOf st lang = (some g, st) := by
  unfold fetchGrammar
  cases hu : urlFor lang with
  | none => rw [hu] at hurl; simp at hurl
  | some u => rw [hc]

/-- The color map after any `fetchGrammar` call is either unchanged or
the update for the provided grammar's sorted token types. -/
theorem fetchGrammar_colors_cases {provider : String → Option RawGrammar}
    {grammarOf : RawGrammar → Grammar} {st : HState} {lang : String}
    {res : Option Grammar} {st' : HState}
    (h : fetchGrammar provider grammarOf st lang = (res, st')) :
    st'.tokenTypeColors = st.tokenTypeColors ∨
      ∃ raw, provider lang = some raw ∧
        st'.tokenTypeColors = updateColors st.tokenTypeColors (sortedTokenTypes raw) := by
  unfold fetchGrammar at h
  split at h
  · injection h with h1 h2
    exact Or.inl (by rw [← h2])
  · split at h
    · injection h with h1 h2
      exact Or.inl (by rw [← h2])
    · split at h
      · injection h with h1 h2
        exact Or.inl (by rw [← h2])
      · rename_i raw hraw
        split at h
        · injection h with h1 h2
          exact Or.inl (by rw [← h2])
        · injection h with h1 h2
          refine Or.inr ⟨raw, hraw, ?_⟩
          rw [← h2]

/-- If no line from the search start on matches the triple-quote
pattern, the python literal search produces nothing. -/
theorem findPyAux_no_open (lines : List (List Char)) :
    ∀ fuel i acc,
      (∀ j, j < lines.length → i ≤ j → matchTriple (lines.getD j []) = none) →
      (findPyAux lines fuel i none acc).1 = none := by
  intro fuel
  induction fuel with
  | zero =>
    intro i acc _
    rfl
  | succ fuel ih =>
    intro i acc hno
    simp only [findPyAux]
    split
    · rename_i hi
      rw [hno i hi (Nat.le_refl i)]
      exact ih (i + 1) _ (fun j hj1 hj2 => hno j hj1 (by omega))
    · rfl

/-- If no line from the search start on contains a backtick, the
template literal search produces nothing. -/
theorem findTplAux_no_open (lines : List (List Char)) :
    ∀ fuel i acc,
      (∀ j, j < lines.length → i ≤ j → matchTick (lines.getD j []) = none) →
      findTplAux lines fuel i none acc = none := by
  intro fuel
  induction fuel with
  | zero =>
    intro i acc _
    rfl
  | succ fuel ih =>
    intro i acc hno
    simp only [findTplAux]
    split
    · rename_i hi
      rw [hno i hi (Nat.le_refl i)]
      exact ih (i + 1) _ (fun j hj1 hj2 => hno j hj1 (by omega))
    · rfl

/-- C10: the scanner anchors the literal at the LAST delimiter occurrence
on a line (the pre-literal group is greedy): any matched line splits as
`pre ++ delimiter ++ post` with no further triple-quote occurrence inside
`post`, so for a line like `x = \"\"\"hello\"\"\"` everything before the
final triple quote (earlier quotes included) is pre-literal host code;
consequently a same-line open-and-close literal is never produced: every
returned Region satisfies `startLine < endLine` (no zero-span Region). -/
theorem c10_greedy_anchor_no_zero_span :
    (∀ cs pre q post : List Char, matchTriple cs = some (pre, q, post) →
      cs = pre ++ q ++ post ∧ q.length = 3 ∧ (∀ c ∈ q, isQuoteChar c = true) ∧
      (∀ k, tripleAt post k = false)) ∧
    (∀ (lines : List (List Char)) (fromLine : Nat) (lang : String) (r : Region),
      (findStringLiteral lines fromLine lang).1 = some r → r.startLine < r.endLine) := by
  constructor
  · intro cs pre q post h
    obtain ⟨h1, h2, h3, _, h5⟩ := matchTriple_spec h
    exact ⟨h1, h2, h3, h5⟩
  · intro lines f lang r h
    exact (findStringLiteral_bounds h).2.1

def c10Line : List Char := chars "x = \"\"\"hello\"\"\""

def c10Lines : List (List Char) := [c10Line, chars "\"\"\""]

theorem c10_witness :
    (c10Line = chars "x = \"\"\"hello" ++ chars "\"\"\"" ++ [] ∧
      (chars "\"\"\"").length = 3 ∧ (∀ c ∈ chars "\"\"\"", isQuoteChar c = true) ∧
      (∀ k, tripleAt [] k = false)) ∧
    (⟨0, 15, 1, [[], []]⟩ : Region).startLine < (⟨0, 15, 1, [[], []]⟩ : Region).endLine :=
  ⟨c10_greedy_anchor_no_zero_span.1 c10Line (chars "x = \"\"\"hello") (chars "\"\"\"") []
      (by decide),
    c10_greedy_anchor_no_zero_span.2 c10Lines 0 "python" ⟨0, 15, 1, [[], []]⟩ (by decide)⟩

/-- C4: no two Regions of one scan pass overlap: the emitted hits are
strictly ordered, each starting after the previous one's `endLine`
(`List.Pairwise` over the whole output), and whenever the loop stands at
a line `i ≤ prevEndLine` it skips it, resuming the directive scan past
`endLine` without examining the skipped line. -/
theorem c4_regions_disjoint :
    (∀ (parentLanguageId : String) (lines : List (List Char)),
      List.Pairwise (fun a b => a.region.endLine < b.region.startLine)
        (scanRegions parentLanguageId lines)) ∧
    (∀ (parentLanguageId : String) (lines : List (List Char)) (fuel i e : Nat),
      i < lines.length → i ≤ e →
      scanAux parentLanguageId lines (fuel + 1) i (some e) =
        scanAux parentLanguageId lines fuel (i + 1) (some e)) := by
  constructor
  · intro lang lines
    exact scanAux_pairwise lang lines lines.length 0 none
  · intro lang lines fuel i e hi he
    simp only [scanAux]
    rw [if_pos hi, if_pos (by simp [skipCheck, he])]

def c4Lines : List (List Char) :=
  [chars "# lang: js", chars "\"\"\"", chars "\"\"\"", chars "# lang: css",
   chars "\"\"\"", chars "\"\"\""]

theorem c4_witness :
    List.Pairwise (fun a b => a.region.endLine < b.region.startLine)
      (scanRegions "python" c4Lines) ∧
    scanAux "python" c4Lines 5 1 (some 2) = scanAux "python" c4Lines 4 2 (some 2) :=
  ⟨c4_regions_disjoint.1 "python" c4Lines,
    c4_regions_disjoint.2 "python" c4Lines 4 1 2 (by decide) (by decide)⟩

def c2Lines : List (List Char) :=
  [chars "# lang: js", chars "x = 1", chars "\"\"\"", chars "abc", chars "\"\"\""]

/-- C2 counterexample: with host code between the directive and the
opening delimiter (`x = 1`), the scan still produces one Region spanning
lines 2–4, but that pre-literal line is pushed into `contentLines` too,
so `contentLines.length = 4 ≠ endLine - startLine + 1 = 3`. -/
theorem c2_counterexample :
    (scanRegions "python" c2Lines).map
        (fun h => (h.region.startLine, h.region.endLine, h.region.contentLines.length)) =
      [(2, 4, 4)] ∧ 4 ≠ 4 - 2 + 1 := by
  constructor
  · decide
  · decide

/-- C2 amended: `startLine < endLine` (hence `startLine ≤ endLine`) holds
for every returned Region; the length identity `contentLines.length =
endLine - startLine + 1` holds provided the literal opens on the first
searched line (no host lines between the directive and the opening
delimiter — such lines are wrongly appended to `contentLines`) and, for
the triple-quoted dialect, no interior line matches the triple-quote
pattern with a differing variant (such lines are dropped). -/
theorem c2_region_line_count :
    (∀ (lines : List (List Char)) (f : Nat) (lang : String) (r : Region),
      (findStringLiteral lines f lang).1 = some r → r.startLine < r.endLine) ∧
    (∀ (lines : List (List Char)) (f : Nat) (r : Region),
      (findStringLiteral lines f "python").1 = some r →
      r.startLine = f →
      (∀ j, j < lines.length → r.startLine < j → j < r.endLine →
        matchTriple (lines.getD j []) = none) →
      r.contentLines.length = r.endLine - r.startLine + 1) ∧
    (∀ (lines : List (List Char)) (f : Nat) (lang : String) (r : Region),
      lang ∈ templateLangs →
      (findStringLiteral lines f lang).1 = some r →
      r.startLine = f →
      r.contentLines.length = r.endLine - r.startLine + 1) := by
  refine ⟨fun lines f lang r h => (findStringLiteral_bounds h).2.1, ?_, ?_⟩
  · intro lines f r h hsf hmid
    unfold findStringLiteral at h
    rw [if_pos (by rfl)] at h
    rcases heq : findPyAux lines (lines.length - f) f none [] with ⟨ro, lo⟩
    rw [heq] at h
    simp at h
    obtain ⟨s, pre, q, post, e, preE, postE, hs1, hs2, hs3, hs4, hs5, hs6, hs7, hs8, hs9, hs10⟩ :=
      findPyAux_open lines _ f [] r lo (by rw [heq, h])
    have hsf' : s = f := by omega
    subst hsf'
    rw [hs10, midsPy_eq_midLines (fun j hj1 hj2 => hmid j (by omega) (by omega) (by omega))]
    simp [length_midLines, midLines]
    omega
  · intro lines f lang r hlang h hsf
    have hl : lang = "javascript" ∨ lang = "typescript" ∨ lang = "javascriptreact" ∨
        lang = "typescriptreact" := by
      simpa [templateLangs] using hlang
    unfold findStringLiteral at h
    rw [if_neg (by rcases hl with rfl | rfl | rfl | rfl <;> decide),
      if_pos (by rcases hl with rfl | rfl | rfl | rfl <;> decide)] at h
    obtain ⟨s, pre, post, e, preE, postE, hs1, hs2, hs3, hs4, hs5, hs6, hs7, hs8, hs9, hs10, hs11⟩ :=
      findTplAux_open lines _ f [] r h
    have hsf' : s = f := by omega
    subst hsf'
    rw [hs11]
    simp [length_midLines, midLines]
    omega

def c2LinesPy : List (List Char) := [chars "\"\"\"", chars "mid", chars "\"\"\""]

def c2RegionPy : Region := ⟨0, 3, 2, [[], chars "mid", []]⟩

def c2LinesTpl : List (List Char) := [chars "`", chars "mid", chars "`"]

def c2RegionTpl : Region := ⟨0, 0, 2, [[], chars "mid", []]⟩

theorem c2_witness :
    c2RegionPy.startLine < c2RegionPy.endLine ∧
    c2RegionPy.contentLines.length = c2RegionPy.endLine - c2RegionPy.startLine + 1 ∧
    c2RegionTpl.contentLines.length = c2RegionTpl.endLine - c2RegionTpl.startLine + 1 :=
  ⟨c2_region_line_count.1 c2LinesPy 0 "python" c2RegionPy (by decide),
    c2_region_line_count.2.1 c2LinesPy 0 c2RegionPy (by decide) (by decide)
      (by
        intro j hj1 hj2 hj3
        have h2 : 0 < j := hj2
        have h3 : j < 2 := hj3
        have hj : j = 1 := by omega
        subst hj
        decide),
    c2_region_line_count.2.2 c2LinesTpl 0 "javascript" c2RegionTpl (by decide) (by decide)
      (by decide)⟩

def c1Lines : List (List Char) :=
  [chars "# lang: js", chars "pre", chars "\"\"\"", chars "abc", chars "\"\"\""]

/-- C1 counterexample: the host line `pre` sits between the directive and
the opening delimiter; the scanner produces the Region for lines 2–4 but
prepends `pre` to `contentLines`, so joining `contentLines` with
newlines yields `pre\n\nabc\n`, not the literal's interior `\nabc\n`. -/
theorem c1_counterexample :
    (scanRegions "python" c1Lines).map (fun h => h.region.contentLines) =
      [[chars "pre", [], chars "abc", []]] ∧
    (scanRegions "python" c1Lines).map
        (fun h => (h.region.startLine, h.region.endLine)) = [(2, 4)] ∧
    List.intercalate [Char.ofNat 10] [chars "pre", [], chars "abc", []] ≠
      interiorPy c1Lines 2 4 := by
  refine ⟨by decide, by decide, by decide⟩

theorem midLines_self (lines : List (List Char)) (a : Nat) : midLines lines a a = [] := by
  simp [midLines]

/-- C1 amended: joining `contentLines` with newlines reproduces the
literal's interior exactly when the literal opens on the first searched
line (host lines scanned before the opening delimiter are otherwise
wrongly prepended) and, for the triple-quoted dialect, no interior line
matches the triple-quote pattern with a differing variant (such lines
are otherwise dropped).  The backtick dialect needs no variant proviso. -/
theorem c1_roundtrip :
    (∀ (lines : List (List Char)) (f : Nat) (r : Region),
      (findStringLiteral lines f "python").1 = some r →
      r.startLine = f →
      (∀ j, j < lines.length → r.startLine < j → j < r.endLine →
        matchTriple (lines.getD j []) = none) →
      List.intercalate [Char.ofNat 10] r.contentLines =
        interiorPy lines r.startLine r.endLine) ∧
    (∀ (lines : List (List Char)) (f : Nat) (lang : String) (r : Region),
      lang ∈ templateLangs →
      (findStringLiteral lines f lang).1 = some r →
      r.startLine = f →
      List.intercalate [Char.ofNat 10] r.contentLines =
        interiorTpl lines r.startLine r.endLine) := by
  constructor
  · intro lines f r h hsf hmid
    unfold findStringLiteral at h
    rw [if_pos (by rfl)] at h
    rcases heq : findPyAux lines (lines.length - f) f none [] with ⟨ro, lo⟩
    rw [heq] at h
    simp at h
    obtain ⟨s, pre, q, post, e, preE, postE, hs1, hs2, hs3, hs4, hs5, hs6, hs7, hs8, hs9, hs10⟩ :=
      findPyAux_open lines _ f [] r lo (by rw [heq, h])
    have hsf' : s = f := by omega
    subst hsf'
    rw [hs10, midsPy_eq_midLines (fun j hj1 hj2 => hmid j (by omega) (by omega) (by omega)),
      hs7, hs9]
    unfold interiorPy
    rw [hs5, hs6]
    simp [midLines_self]
  · intro lines f lang r hlang h hsf
    have hl : lang = "javascript" ∨ lang = "typescript" ∨ lang = "javascriptreact" ∨
        lang = "typescriptreact" := by
      simpa [templateLangs] using hlang
    unfold findStringLiteral at h
    rw [if_neg (by rcases hl with rfl | rfl | rfl | rfl <;> decide),
      if_pos (by rcases hl with rfl | rfl | rfl | rfl <;> decide)] at h
    obtain ⟨s, pre, post, e, preE, postE, hs1, hs2, hs3, hs4, hs5, hs6, hs7, hs8, hs9, hs10, hs11⟩ :=
      findTplAux_open lines _ f [] r h
    have hsf' : s = f := by omega
    subst hsf'
    rw [hs11, hs8, hs10]
    unfold interiorTpl
    rw [hs5, hs6]
    simp [midLines_self]

theorem c1_witness :
    List.intercalate [Char.ofNat 10] c2RegionPy.contentLines =
      interiorPy c2LinesPy c2RegionPy.startLine c2RegionPy.endLine ∧
    List.intercalate [Char.ofNat 10] c2RegionTpl.contentLines =
      interiorTpl c2LinesTpl c2RegionTpl.startLine c2RegionTpl.endLine :=
  ⟨c1_roundtrip.1 c2LinesPy 0 c2RegionPy (by decide) (by decide)
      (by
        intro j hj1 hj2 hj3
        have h2 : 0 < j := hj2
        have h3 : j < 2 := hj3
        have hj : j = 1 := by omega
        subst hj
        decide),
    c1_roundtrip.2 c2LinesTpl 0 "javascript" c2RegionTpl (by decide) (by decide) (by decide)⟩

def c3Lines : List (List Char) := [chars "\"\"\"", chars "'''", chars "\"\"\""]

/-- C3 counterexample: with the literal opened by `\"\"\"` on line 0, the
mismatched line `'''` (line 1) is reported (log entry `1`) and is not a
delimiter — the literal still closes at line 2 — but contrary to the
claim the line is NOT appended to `contentLines`: the region's content is
`[ "", "" ]`, which does not contain `'''` (and has only 2 entries for a
3-line span). -/
theorem c3_counterexample :
    findStringLiteral c3Lines 0 "python" = (some ⟨0, 3, 2, [[], []]⟩, [1]) ∧
    chars "'''" ∉ (⟨0, 3, 2, [[], []]⟩ : Region).contentLines := by
  refine ⟨by decide, by decide⟩

/-- C3 amended: while a triple-quoted literal is open, a line matching
the triple-quote pattern with a different quote variant is logged
(`console.error`, the line index is recorded) and is never fatal — the
search continues at the next line with the open state unchanged and the
line is not treated as a delimiter — but the line is NOT appended to
`contentLines`: the content accumulator is passed on unchanged. -/
theorem c3_mismatch_skipped (lines : List (List Char)) (fuel i s off : Nat)
    (fq pre q post : List Char) (acc : List (List Char))
    (hi : i < lines.length)
    (hm : matchTriple (lines.getD i []) = some (pre, q, post))
    (hq : q ≠ fq) :
    findPyAux lines (fuel + 1) i (some (s, off, fq)) acc =
      ((findPyAux lines fuel (i + 1) (some (s, off, fq)) acc).1,
        i :: (findPyAux lines fuel (i + 1) (some (s, off, fq)) acc).2) := by
  simp only [findPyAux]
  rw [if_pos hi, hm]
  simp [hq]

def c3MismatchLine : List (List Char) := [chars "'''"]

theorem c3_witness :
    findPyAux c3MismatchLine 1 0 (some (0, 3, chars "\"\"\"")) [[]] =
      ((findPyAux c3MismatchLine 0 1 (some (0, 3, chars "\"\"\"")) [[]]).1,
        0 :: (findPyAux c3MismatchLine 0 1 (some (0, 3, chars "\"\"\"")) [[]]).2) :=
  c3_mismatch_skipped c3MismatchLine 0 0 0 3 (chars "\"\"\"") [] (chars "'''") [] [[]]
    (by decide) (by decide) (by decide)

/-- C5: every token the adapter emits from content line `k` (0-indexed)
of a region sits at host line `startLine + k`, with columns shifted by
`startLineOffset` exactly when `k = 0`; and the scanner sets
`startLineOffset` to the pre-literal text length plus the delimiter
length 3 for the triple-quoted dialect, and to the pre-literal text
length with nothing added for the backtick dialect. -/
theorem c5_token_coordinates :
    (∀ (g : Grammar) (startLine startLineOffset : Nat) (ls : List (List Char)) (tok : Token),
      tok ∈ tokenizeWithGrammar ls g startLine startLineOffset →
      ∃ k t, k < ls.length ∧
        t ∈ (g.tokenizeLine (ls.getD k []) (threadStack g ls k 0)).1 ∧
        tok.type = lastScope t.scopes ∧
        tok.line = startLine + k ∧
        tok.startCol = t.startIndex + (if k = 0 then startLineOffset else 0) ∧
        tok.endCol = t.endIndex + (if k = 0 then startLineOffset else 0)) ∧
    (∀ (lines : List (List Char)) (f : Nat) (r : Region),
      (findStringLiteral lines f "python").1 = some r →
      ∃ pre q post, matchTriple (lines.getD r.startLine []) = some (pre, q, post) ∧
        r.startLineOffset = pre.length + 3) ∧
    (∀ (lines : List (List Char)) (f : Nat) (lang : String) (r : Region),
      lang ∈ templateLangs →
      (findStringLiteral lines f lang).1 = some r →
      ∃ pre post, matchTick (lines.getD r.startLine []) = some (pre, post) ∧
        r.startLineOffset = pre.length) := by
  refine ⟨?_, ?_, ?_⟩
  · intro g sL off ls tok h
    obtain ⟨k, t, hk, ht, h3, h4, h5, h6⟩ := mem_tokenizeAux ls 0 0 tok h
    rw [show (0 : Nat) + k = k from by omega] at h4 h5 h6
    exact ⟨k, t, hk, ht, h3, h4, h5, h6⟩
  · intro lines f r h
    unfold findStringLiteral at h
    rw [if_pos (by rfl)] at h
    rcases heq : findPyAux lines (lines.length - f) f none [] with ⟨ro, lo⟩
    rw [heq] at h
    simp at h
    obtain ⟨s, pre, q, post, e, preE, postE, _, _, _, _, hs5, _, hs7, hs8, _, _⟩ :=
      findPyAux_open lines _ f [] r lo (by rw [heq, h])
    obtain ⟨_, hq3, _, _, _⟩ := matchTriple_spec hs5
    exact ⟨pre, q, post, by rw [hs7]; exact hs5, by rw [hs8, hq3]⟩
  · intro lines f lang r hlang h
    have hl : lang = "javascript" ∨ lang = "typescript" ∨ lang = "javascriptreact" ∨
        lang = "typescriptreact" := by
      simpa [templateLangs] using hlang
    unfold findStringLiteral at h
    rw [if_neg (by rcases hl with rfl | rfl | rfl | rfl <;> decide),
      if_pos (by rcases hl with rfl | rfl | rfl | rfl <;> decide)] at h
    obtain ⟨s, pre, post, e, preE, postE, _, _, _, _, hs5, _, _, hs8, hs9, _, _⟩ :=
      findTplAux_open lines _ f [] r h
    exact ⟨pre, post, by rw [hs8]; exact hs5, by rw [hs9]⟩

/-- A one-rule test tokenizer: each line becomes a single span covering
the whole line, and the rule stack is incremented per line. -/
def gTest : Grammar :=
  ⟨fun line st => ([⟨0, line.length, ["source.test"]⟩], st + 1)⟩

def c5Content : List (List Char) := [chars "ab", chars "c"]

theorem c5_witness :
    (∃ k t, k < c5Content.length ∧
      t ∈ (gTest.tokenizeLine (c5Content.getD k []) (threadStack gTest c5Content k 0)).1 ∧
      (⟨"source.test", chars "c", 6, 0, 1⟩ : Token).type = lastScope t.scopes ∧
      (⟨"source.test", chars "c", 6, 0, 1⟩ : Token).line = 5 + k ∧
      (⟨"source.test", chars "c", 6, 0, 1⟩ : Token).startCol =
        t.startIndex + (if k = 0 then 7 else 0) ∧
      (⟨"source.test", chars "c", 6, 0, 1⟩ : Token).endCol =
        t.endIndex + (if k = 0 then 7 else 0)) ∧
    (∃ pre q post, matchTriple (c2LinesPy.getD c2RegionPy.startLine []) = some (pre, q, post) ∧
      c2RegionPy.startLineOffset = pre.length + 3) ∧
    (∃ pre post, matchTick (c2LinesTpl.getD c2RegionTpl.startLine []) = some (pre, post) ∧
      c2RegionTpl.startLineOffset = pre.length) :=
  ⟨c5_token_coordinates.1 gTest 5 7 c5Content ⟨"source.test", chars "c", 6, 0, 1⟩ (by decide),
    c5_token_coordinates.2.1 c2LinesPy 0 c2RegionPy (by decide),
    c5_token_coordinates.2.2 c2LinesTpl 0 "javascript" c2RegionTpl (by decide) (by decide)⟩

/-- C6: reaching the end of the document while a literal search is still
seeking (its opening or closing delimiter) produces no Region — the
search returns `null` once the lines run out, in particular whenever no
candidate line exists at all — and the directive loop simply continues
with the next line, so the rest of the document is still scanned. -/
theorem c6_unterminated_dropped :
    (∀ (lines : List (List Char)) (f : Nat) (lang : String),
      lines.length ≤ f → (findStringLiteral lines f lang).1 = none) ∧
    (∀ (lines : List (List Char)) (f : Nat),
      (∀ j, j < lines.length → f ≤ j → matchTriple (lines.getD j []) = none) →
      (findStringLiteral lines f "python").1 = none) ∧
    (∀ (lines : List (List Char)) (f : Nat) (r : Region),
      (findStringLiteral lines f "python").1 = some r →
      r.endLine < lines.length ∧
      ∃ pre q post preE postE,
        matchTriple (lines.getD r.startLine []) = some (pre, q, post) ∧
        matchTriple (lines.getD r.endLine []) = some (preE, q, postE)) ∧
    (∀ (lines : List (List Char)) (f : Nat) (lang : String) (r : Region),
      lang ∈ templateLangs →
      (findStringLiteral lines f lang).1 = some r →
      r.endLine < lines.length ∧
      ∃ preE postE, matchTick (lines.getD r.endLine []) = some (preE, postE)) ∧
    (∀ (parentLanguageId : String) (lines : List (List Char)) (fuel i : Nat)
      (pe : Option Nat) (tl : String),
      i < lines.length → skipCheck pe i = false →
      matchDirective parentLanguageId (lines.getD i []) = some tl →
      (findStringLiteral lines (i + 1) parentLanguageId).1 = none →
      scanAux parentLanguageId lines (fuel + 1) i pe =
        scanAux parentLanguageId lines fuel (i + 1) pe) := by
  refine ⟨?_, ?_, ?_, ?_, ?_⟩
  · intro lines f lang hf
    unfold findStringLiteral
    have h0 : lines.length - f = 0 := by omega
    split
    · rw [h0]
      rfl
    · split
      · rw [h0]
        rfl
      · rfl
  · intro lines f hno
    unfold findStringLiteral
    rw [if_pos (by rfl)]
    exact findPyAux_no_open lines _ f [] hno
  · intro lines f r h
    unfold findStringLiteral at h
    rw [if_pos (by rfl)] at h
    rcases heq : findPyAux lines (lines.length - f) f none [] with ⟨ro, lo⟩
    rw [heq] at h
    simp at h
    obtain ⟨s, pre, q, post, e, preE, postE, _, _, hs3, _, hs5, hs6, hs7, _, hs9, _⟩ :=
      findPyAux_open lines _ f [] r lo (by rw [heq, h])
    rw [hs7, hs9]
    exact ⟨hs3, pre, q, post, preE, postE, hs5, hs6⟩
  · intro lines f lang r hlang h
    have hl : lang = "javascript" ∨ lang = "typescript" ∨ lang = "javascriptreact" ∨
        lang = "typescriptreact" := by
      simpa [templateLangs] using hlang
    unfold findStringLiteral at h
    rw [if_neg (by rcases hl with rfl | rfl | rfl | rfl <;> decide),
      if_pos (by rcases hl with rfl | rfl | rfl | rfl <;> decide)] at h
    obtain ⟨s, pre, post, e, preE, postE, _, _, hs3, _, _, hs6, _, _, _, hs10, _⟩ :=
      findTplAux_open lines _ f [] r h
    rw [hs10]
    exact ⟨hs3, preE, postE, hs6⟩
  · intro lang lines fuel i pe tl hi hskip hd hfind
    simp only [scanAux]
    rw [if_pos hi, if_neg (by simp [hskip]), hd]
    rcases hpair : findStringLiteral lines (i + 1) lang with ⟨ro, lo⟩
    rw [hpair] at hfind
    simp at hfind
    rw [hfind]

def c6Lines : List (List Char) := [chars "# lang: js"]

theorem c6_witness :
    (findStringLiteral c6Lines 1 "python").1 = none ∧
    (findStringLiteral c6Lines 0 "python").1 = none ∧
    (c2RegionPy.endLine < c2LinesPy.length ∧
      ∃ pre q post preE postE,
        matchTriple (c2LinesPy.getD c2RegionPy.startLine []) = some (pre, q, post) ∧
        matchTriple (c2LinesPy.getD c2RegionPy.endLine []) = some (preE, q, postE)) ∧
    (c2RegionTpl.endLine < c2LinesTpl.length ∧
      ∃ preE postE, matchTick (c2LinesTpl.getD c2RegionTpl.endLine []) = some (preE, postE)) ∧
    scanAux "python" c6Lines 1 0 none = scanAux "python" c6Lines 0 1 none :=
  ⟨c6_unterminated_dropped.1 c6Lines 1 "python" (by decide),
    c6_unterminated_dropped.2.1 c6Lines 0
      (by
        intro j hj1 hj2
        have h1 : j < 1 := hj1
        have hj : j = 0 := by omega
        subst hj
        decide),
    c6_unterminated_dropped.2.2.1 c2LinesPy 0 c2RegionPy (by decide),
    c6_unterminated_dropped.2.2.2.1 c2LinesTpl 0 "javascript" c2RegionTpl (by decide)
      (by decide),
    c6_unterminated_dropped.2.2.2.2 "python" c6Lines 0 0 none "js" (by decide) (by decide)
      (by decide) (by decide)⟩

theorem applySyntax_none {provider : String → Option RawGrammar}
    {grammarOf : RawGrammar → Grammar} {st : HState} {lang : String} {st' : HState}
    (h : fetchGrammar provider grammarOf st lang = (none, st'))
    (sL off : Nat) (cl : List (List Char)) :
    applySyntaxHighlighting provider grammarOf st sL off cl lang = ([], st, true) := by
  have hst : st' = st := fetchGrammar_none_state h
  subst hst
  unfold applySyntaxHighlighting
  rw [h]

/-- C7: when no Grammar is available for a region's language (unknown id
or provider failure), `fetchGrammar` leaves the highlighter state
untouched, `applySyntaxHighlighting` returns zero decorations with the
failure reported (the error flag, standing for the `console.error`
call), and the pass over the remaining regions is exactly what it would
have been without that region. -/
theorem c7_no_grammar_no_tokens :
    (∀ (provider : String → Option RawGrammar) (grammarOf : RawGrammar → Grammar)
      (st : HState) (lang : String) (st' : HState),
      fetchGrammar provider grammarOf st lang = (none, st') →
      ∀ (sL off : Nat) (cl : List (List Char)),
        applySyntaxHighlighting provider grammarOf st sL off cl lang = ([], st, true)) ∧
    (∀ (provider : String → Option RawGrammar) (grammarOf : RawGrammar → Grammar)
      (st : HState) (h : ScanHit) (rest : List ScanHit),
      (fetchGrammar provider grammarOf st h.targetLanguage).1 = none →
      highlightRegions provider grammarOf st (h :: rest) =
        highlightRegions provider grammarOf st rest) := by
  constructor
  · intro provider grammarOf st lang st' h sL off cl
    exact applySyntax_none h sL off cl
  · intro provider grammarOf st h rest hfetch
    rcases hpair : fetchGrammar provider grammarOf st h.targetLanguage with ⟨ro, st'⟩
    rw [hpair] at hfetch
    simp at hfetch
    subst hfetch
    simp only [highlightRegions]
    rw [applySyntax_none hpair h.region.startLine h.region.startLineOffset
      h.region.contentLines]
    simp

def gOf : RawGrammar → Grammar := fun _ => ⟨fun _ st => ([], st)⟩

def noProvider : String → Option RawGrammar := fun _ => none

def st0 : HState := ⟨[], []⟩

def c7Hit : ScanHit := ⟨"zzz", ⟨0, 0, 1, [[]]⟩⟩

theorem c7_witness :
    applySyntaxHighlighting noProvider gOf st0 0 0 [[]] "zzz" = ([], st0, true) ∧
    highlightRegions noProvider gOf st0 [c7Hit] = highlightRegions noProvider gOf st0 [] :=
  ⟨c7_no_grammar_no_tokens.1 noProvider gOf st0 "zzz" st0 rfl 0 0 [[]],
    c7_no_grammar_no_tokens.2 noProvider gOf st0 c7Hit [] rfl⟩

theorem ruleNames_leaf (n cn : Option String) (c b e : List (String × Option String)) :
    ruleNames (.mk n cn [] [] c b e) =
      n.toList ++ cn.toList ++ capNames c ++ capNames b ++ capNames e := by
  rw [ruleNames_def]
  simp

def rawDefault : RawGrammar := ⟨some "source.d", .mk (some "default") none [] [] [] [] []⟩

theorem sortedTokenTypes_rawDefault : sortedTokenTypes rawDefault = ["default"] := by
  unfold sortedTokenTypes extractTokenTypesFromGrammar
  rw [show rawDefault.rule = RawRule.mk (some "default") none [] [] [] [] [] from rfl,
    ruleNames_leaf]
  decide

/-- C8 counterexample: for a grammar whose reachable scope names are
exactly `["default"]`, the claimed assignment is
`palette[0 mod 20] = "#569cd6"`, but the fallback write
`tokenTypeColors.set('default', '#dcdcdc')` performed after the palette
loop overrides it, so the resulting map holds `"#dcdcdc"` instead. -/
theorem c8_counterexample :
    sortedTokenTypes rawDefault = ["default"] ∧
    colorPalette.getD (0 % colorPalette.length) "" = "#569cd6" ∧
    (updateColors [] (sortedTokenTypes rawDefault)).lookup "default" = some "#dcdcdc" ∧
    ("#dcdcdc" : String) ≠ "#569cd6" := by
  refine ⟨sortedTokenTypes_rawDefault, by decide, ?_, by decide⟩
  rw [sortedTokenTypes_rawDefault]
  decide

/-- C8 amended: the token types extracted from a grammar are exactly the
distinct non-empty scope names reachable in its rule tree, sorted
(duplicate-free and in non-decreasing code-unit order); the color map
update assigns `palette[index mod palette.length]` to the label at each
sorted index — except the reserved label `"default"`, which the final
fallback write forces to `"#dcdcdc"` — and does so regardless of the
prior contents of the shared map, so the assignment for a given grammar
is deterministic across loads. -/
theorem c8_color_assignment (g : RawGrammar) :
    List.Pairwise (fun a b => strLeb a b = true) (sortedTokenTypes g) ∧
    (sortedTokenTypes g).Nodup ∧
    (∀ s, s ∈ sortedTokenTypes g ↔ ReachableScopeName g.rule s ∧ s ≠ "") ∧
    (∀ (m : List (String × String)) (j : Nat) (hj : j < (sortedTokenTypes g).length),
      (sortedTokenTypes g).get ⟨j, hj⟩ ≠ "default" →
      (updateColors m (sortedTokenTypes g)).lookup ((sortedTokenTypes g).get ⟨j, hj⟩) =
        some (colorPalette.getD (j % colorPalette.length) "")) ∧
    (∀ m, (updateColors m (sortedTokenTypes g)).lookup "default" = some "#dcdcdc") := by
  have hnd : (sortedTokenTypes g).Nodup :=
    sortStrings_nodup (List.Nodup.filter _ (List.nodup_dedup _))
  refine ⟨sortStrings_pairwise _, hnd, ?_, ?_, ?_⟩
  · intro s
    unfold sortedTokenTypes extractTokenTypesFromGrammar
    rw [mem_sortStrings, List.mem_filter, List.mem_dedup, mem_ruleNames_iff_reachable]
    simp
  · intro m j hj hne
    exact lookup_updateColors_mem m (sortedTokenTypes g) j hj hnd hne
  · intro m
    exact lookup_updateColors_default m (sortedTokenTypes g)

def rawAlpha : RawGrammar := ⟨some "source.a", .mk (some "alpha") (some "beta") [] [] [] [] []⟩

theorem sortedTokenTypes_rawAlpha : sortedTokenTypes rawAlpha = ["alpha", "beta"] := by
  unfold sortedTokenTypes extractTokenTypesFromGrammar
  rw [show rawAlpha.rule = RawRule.mk (some "alpha") (some "beta") [] [] [] [] [] from rfl,
    ruleNames_leaf]
  decide

theorem c8_witness :
    (updateColors [] (sortedTokenTypes rawAlpha)).lookup "beta" = some "#ce9178" ∧
    (updateColors [] (sortedTokenTypes rawAlpha)).lookup "default" = some "#dcdcdc" := by
  have h := c8_color_assignment rawAlpha
  constructor
  · have hj : 1 < (sortedTokenTypes rawAlpha).length := by
      rw [sortedTokenTypes_rawAlpha]
      decide
    have hbeta : (sortedTokenTypes rawAlpha).get ⟨1, hj⟩ = "beta" := by
      rw [List.get_of_eq sortedTokenTypes_rawAlpha]
      rfl
    have h4 := h.2.2.2.1 [] 1 hj (by rw [hbeta]; decide)
    rw [← hbeta, h4]
    decide
  · exact h.2.2.2.2 []

def rawBeta : RawGrammar := ⟨some "source.b", .mk (some "beta") none [] [] [] [] []⟩

theorem sortedTokenTypes_rawBeta : sortedTokenTypes rawBeta = ["beta"] := by
  unfold sortedTokenTypes extractTokenTypesFromGrammar
  rw [show rawBeta.rule = RawRule.mk (some "beta") none [] [] [] [] [] from rfl,
    ruleNames_leaf]
  decide

def c9Provider : String → Option RawGrammar := fun l =>
  if l == "js" then some rawAlpha else if l == "css" then some rawBeta else none

/-- C9 counterexample: after loading the grammar for language id `js`
(scope names `alpha`, `beta`), the shared color map holds
`beta ↦ palette[1] = "#ce9178"`; loading the grammar for the different
language id `css` (scope names `beta`) then overwrites that entry with
`beta ↦ palette[0] = "#569cd6"` — the color of one of the first
grammar's labels changes, because there is one shared `tokenTypeColors`
map, not one TypeColorMap per language id. -/
theorem c9_counterexample :
    (fetchGrammar c9Provider gOf st0 "js").2.tokenTypeColors.lookup "beta" =
      some "#ce9178" ∧
    (fetchGrammar c9Provider gOf
        (fetchGrammar c9Provider gOf st0 "js").2 "css").2.tokenTypeColors.lookup "beta" =
      some "#569cd6" ∧
    ("#ce9178" : String) ≠ "#569cd6" := by
  have h1 : (fetchGrammar c9Provider gOf st0 "js").2.tokenTypeColors =
      updateColors [] (sortedTokenTypes rawAlpha) := rfl
  have h2 : (fetchGrammar c9Provider gOf
      (fetchGrammar c9Provider gOf st0 "js").2 "css").2.tokenTypeColors =
      updateColors (updateColors [] (sortedTokenTypes rawAlpha)) (sortedTokenTypes rawBeta) :=
    rfl
  refine ⟨?_, ?_, by decide⟩
  · rw [h1, sortedTokenTypes_rawAlpha]
    decide
  · rw [h2, sortedTokenTypes_rawAlpha, sortedTokenTypes_rawBeta]
    decide

/-- C9 amended: the color mapping for a language id is computed once at
grammar-load time and is not recomputed while the grammar stays cached —
a cache hit returns the cached grammar with the whole state (color map
included) unchanged — and loading a grammar for a different language id
leaves the color of every label that is not among the new grammar's
extracted token types (and is not the reserved `"default"`) unchanged;
labels the two grammars share, however, live in one global map and are
overwritten by the later load. -/
theorem c9_cache_hit_and_frame :
    (∀ (provider : String → Option RawGrammar) (grammarOf : RawGrammar → Grammar)
      (st : HState) (lang : String) (g : Grammar),
      (urlFor lang).isSome = true →
      st.grammarCache.lookup lang = some g →
      fetchGrammar provider grammarOf st lang = (some g, st)) ∧
    (∀ (provider : String → Option RawGrammar) (grammarOf : RawGrammar → Grammar)
      (st : HState) (lang : String) (res : Option Grammar) (st' : HState) (s : String),
      fetchGrammar provider grammarOf st lang = (res, st') →
      (∀ raw, provider lang = some raw → s ∉ sortedTokenTypes raw) →
      s ≠ "default" →
      st'.tokenTypeColors.lookup s = st.tokenTypeColors.lookup s) := by
  constructor
  · intro provider grammarOf st lang g hurl hc
    exact fetchGrammar_cacheHit hurl hc
  · intro provider grammarOf st lang res st' s h hnot hs
    rcases fetchGrammar_colors_cases h with hsame | ⟨raw, hraw, hupd⟩
    · rw [hsame]
    · rw [hupd]
      exact lookup_updateColors_notMem _ _ s (hnot raw hraw) hs

def gdum : Grammar := ⟨fun _ st => ([], st)⟩

def stC : HState := ⟨[("js", gdum)], [("alpha", "#569cd6")]⟩

theorem c9_witness :
    fetchGrammar c9Provider gOf stC "js" = (some gdum, stC) ∧
    (fetchGrammar c9Provider gOf st0 "css").2.tokenTypeColors.lookup "alpha" =
      st0.tokenTypeColors.lookup "alpha" :=
  ⟨c9_cache_hit_and_frame.1 c9Provider gOf stC "js" gdum (by decide) rfl,
    c9_cache_hit_and_frame.2 c9Provider gOf st0 "css" (fetchGrammar c9Provider gOf st0 "css").1
      (fetchGrammar c9Provider gOf st0 "css").2 "alpha" rfl
      (by
        intro raw hr
        have hr2 : rawBeta = raw := by
          injection hr
        subst hr2
        rw [sortedTokenTypes_rawBeta]
        decide)
      (by decide)⟩
